import Mathlib

/-!
Verification of the orbit mind-map graph-and-layout engine (src/script.js).

The engine's state per canvas is a list of node records.  Node coordinates
are JavaScript numbers; we embed them as elements of a linear ordered field
(`ℚ` for concrete witnesses, `ℝ` for the functions that use `Math.sqrt`,
`Math.cos`, `Math.sin`, `Math.atan2`).  Node objects live at most once in
the canvas array, so mutating the object returned by `Array.prototype.find`
is embedded as updating the first list entry with the matching id.
-/

namespace Orbit

/-- Embedding of the node objects stored in `canvas.nodes` in src/script.js.
The fields are the ones the engine reads or writes: `id`, position `x`/`y`,
`parentIds`, `color`, the text fields, the `resolved` flag and the
`instructions` list. -/
structure Node (α : Type) where
  id : ℕ
  x : α
  y : α
  parentIds : List ℕ
  color : Option String
  heading : String
  description : String
  resolved : Bool
  instructions : List String
deriving Repr, DecidableEq

/-- The non-positional part of a node: everything except `x` and `y`.
Used to state frame conditions ("only positions change"). -/
structure NodeStruct where
  id : ℕ
  parentIds : List ℕ
  color : Option String
  heading : String
  description : String
  resolved : Bool
  instructions : List String
deriving Repr, DecidableEq

variable {α : Type}

/-- Project a node to its non-positional fields. -/
def Node.struct (n : Node α) : NodeStruct :=
  ⟨n.id, n.parentIds, n.color, n.heading, n.description, n.resolved, n.instructions⟩

/-- The purely structural part of a node: id and parent list.
Used for claims where colors may change but the graph shape may not. -/
def Node.shape (n : Node α) : ℕ × List ℕ := (n.id, n.parentIds)

@[simp] theorem Node.struct_id (n : Node α) : n.struct.id = n.id := rfl

@[simp] theorem Node.struct_parentIds (n : Node α) : n.struct.parentIds = n.parentIds := rfl

/-- `nodes.find(n => n.id === i)`: first node with the given id. -/
def findNode (nodes : List (Node α)) (i : ℕ) : Option (Node α) :=
  nodes.find? (fun n => n.id = i)

/-- Mutating the object returned by `find` in place: update the first
list entry whose id matches. -/
def updateFirst (nodes : List (Node α)) (i : ℕ) (f : Node α → Node α) : List (Node α) :=
  match nodes with
  | [] => []
  | n :: rest => if n.id = i then f n :: rest else n :: updateFirst rest i f

/-- `nodes.filter(c => c.parentIds.includes(i))`: the children of node `i`. -/
def childrenOf (nodes : List (Node α)) (i : ℕ) : List (Node α) :=
  nodes.filter (fun c => i ∈ c.parentIds)

@[simp] theorem updateFirst_nil (i : ℕ) (f : Node α → Node α) :
    updateFirst ([] : List (Node α)) i f = [] := rfl

theorem updateFirst_cons (n : Node α) (rest : List (Node α)) (i : ℕ) (f : Node α → Node α) :
    updateFirst (n :: rest) i f =
      if n.id = i then f n :: rest else n :: updateFirst rest i f := rfl

/-- If `f` preserves the non-positional fields of every node, so does
`updateFirst`. -/
theorem updateFirst_map_struct (nodes : List (Node α)) (i : ℕ) (f : Node α → Node α)
    (hf : ∀ n, (f n).struct = n.struct) :
    (updateFirst nodes i f).map Node.struct = nodes.map Node.struct := by
  induction nodes with
  | nil => rfl
  | cons n rest ih =>
    rw [updateFirst_cons]
    by_cases h : n.id = i
    · simp [h, hf]
    · simp [h, ih]

/-! ### moveSubtree (src/script.js lines 1420-1434)

`moveSubtree(nodeId, dx, dy, visited)` translates the node and, recursively,
all nodes having it among their parents, guarded by the shared `visited`
set.  The recursion is embedded with a fuel parameter; fuel
`nodes.length + 1` always suffices (`moveSubtreeAux_total`), so the
fuel-exhaustion branch is unreachable. -/

mutual

/-- One call `moveSubtree(nodeId, dx, dy, visited)` of src/script.js. -/
def moveSubtreeAux [Add α] (dx dy : α) :
    ℕ → ℕ → Finset ℕ → List (Node α) → Option (List (Node α) × Finset ℕ)
  | 0, _, _, _ => none
  | fuel+1, nodeId, visited, nodes =>
    if nodeId ∈ visited then some (nodes, visited)
    else
      match findNode nodes nodeId with
      | none => some (nodes, insert nodeId visited)
      | some _ =>
        let nodes₁ := updateFirst nodes nodeId (fun n => { n with x := n.x + dx, y := n.y + dy })
        moveChildrenAux dx dy fuel ((childrenOf nodes₁ nodeId).map (·.id))
          (insert nodeId visited) nodes₁
termination_by fuel _ _ _ => (fuel, 0)

/-- The `children.forEach(child => moveSubtree(child.id, dx, dy, visited))`
loop, threading the canvas and the visited set. -/
def moveChildrenAux [Add α] (dx dy : α) :
    ℕ → List ℕ → Finset ℕ → List (Node α) → Option (List (Node α) × Finset ℕ)
  | _, [], vis, ns => some (ns, vis)
  | fuel, c :: cs, vis, ns =>
    match moveSubtreeAux dx dy fuel c vis ns with
    | none => none
    | some (ns', vis') => moveChildrenAux dx dy fuel cs vis' ns'
termination_by fuel cs _ _ => (fuel, cs.length + 1)

end

/-- Top-level `moveSubtree(nodeId, dx, dy)` (fresh visited set).  The
`none` branch is unreachable by `moveSubtreeAux_total`. -/
def moveSubtree [Add α] (dx dy : α) (nodeId : ℕ) (nodes : List (Node α)) : List (Node α) :=
  match moveSubtreeAux dx dy (nodes.length + 1) nodeId ∅ nodes with
  | some (ns, _) => ns
  | none => nodes

/-- The ids present on the canvas. -/
def idsOf (ns : List (Node α)) : Finset ℕ := (ns.map (·.id)).toFinset

theorem map_struct_ids {ns ns' : List (Node α)}
    (h : ns'.map Node.struct = ns.map Node.struct) :
    ns'.map (·.id) = ns.map (·.id) := by
  have h2 := congrArg (List.map NodeStruct.id) h
  simpa [List.map_map, Function.comp] using h2

theorem idsOf_eq_of_struct {ns ns' : List (Node α)}
    (h : ns'.map Node.struct = ns.map Node.struct) : idsOf ns' = idsOf ns := by
  simp [idsOf, map_struct_ids h]

theorem moveChildrenAux_struct [Add α] (dx dy : α) (fuel : ℕ)
    (ih : ∀ nodeId vis ns out, moveSubtreeAux dx dy fuel nodeId vis ns = some out →
      out.1.map Node.struct = ns.map Node.struct) :
    ∀ cs vis ns out, moveChildrenAux dx dy fuel cs vis ns = some out →
      out.1.map Node.struct = ns.map Node.struct := by
  intro cs
  induction cs with
  | nil =>
    intro vis ns out h
    simp only [moveChildrenAux] at h
    cases h; rfl
  | cons c cs ihcs =>
    intro vis ns out h
    simp only [moveChildrenAux] at h
    cases hstep : moveSubtreeAux dx dy fuel c vis ns with
    | none => rw [hstep] at h; cases h
    | some mid =>
      rw [hstep] at h
      exact (ihcs mid.2 mid.1 out h).trans (ih c vis ns mid hstep)

theorem moveSubtreeAux_struct [Add α] (dx dy : α) :
    ∀ fuel nodeId vis ns out, moveSubtreeAux dx dy fuel nodeId vis ns = some out →
      out.1.map Node.struct = ns.map Node.struct := by
  intro fuel
  induction fuel with
  | zero => intro nodeId vis ns out h; simp [moveSubtreeAux] at h
  | succ f ihf =>
    intro nodeId vis ns out h
    simp only [moveSubtreeAux] at h
    by_cases hv : nodeId ∈ vis
    · simp only [if_pos hv] at h; cases h; rfl
    · simp only [if_neg hv] at h
      cases hfind : findNode ns nodeId with
      | none => rw [hfind] at h; cases h; rfl
      | some n0 =>
        rw [hfind] at h
        have hupd : (updateFirst ns nodeId
            (fun n => { n with x := n.x + dx, y := n.y + dy })).map Node.struct
            = ns.map Node.struct :=
          updateFirst_map_struct ns nodeId _ (fun n => rfl)
        exact (moveChildrenAux_struct dx dy f ihf _ _ _ out h).trans hupd

theorem moveChildrenAux_mono [Add α] (dx dy : α) (fuel : ℕ)
    (ih : ∀ nodeId vis ns out, moveSubtreeAux dx dy fuel nodeId vis ns = some out →
      vis ⊆ out.2) :
    ∀ cs vis ns out, moveChildrenAux dx dy fuel cs vis ns = some out → vis ⊆ out.2 := by
  intro cs
  induction cs with
  | nil =>
    intro vis ns out h
    simp only [moveChildrenAux] at h
    cases h; exact Finset.Subset.refl _
  | cons c cs ihcs =>
    intro vis ns out h
    simp only [moveChildrenAux] at h
    cases hstep : moveSubtreeAux dx dy fuel c vis ns with
    | none => rw [hstep] at h; cases h
    | some mid =>
      rw [hstep] at h
      exact (ih c vis ns mid hstep).trans (ihcs mid.2 mid.1 out h)

theorem moveSubtreeAux_mono [Add α] (dx dy : α) :
    ∀ fuel nodeId vis ns out, moveSubtreeAux dx dy fuel nodeId vis ns = some out →
      vis ⊆ out.2 := by
  intro fuel
  induction fuel with
  | zero => intro nodeId vis ns out h; simp [moveSubtreeAux] at h
  | succ f ihf =>
    intro nodeId vis ns out h
    simp only [moveSubtreeAux] at h
    by_cases hv : nodeId ∈ vis
    · simp only [if_pos hv] at h; cases h; exact Finset.Subset.refl _
    · simp only [if_neg hv] at h
      cases hfind : findNode ns nodeId with
      | none =>
        rw [hfind] at h; cases h
        exact Finset.subset_insert _ _
      | some n0 =>
        rw [hfind] at h
        exact (Finset.subset_insert _ _).trans
          (moveChildrenAux_mono dx dy f ihf _ _ _ out h)

/-- The queried id always ends up in the visited set. -/
theorem moveSubtreeAux_mem [Add α] (dx dy : α) :
    ∀ fuel nodeId vis ns out, moveSubtreeAux dx dy fuel nodeId vis ns = some out →
      nodeId ∈ out.2 := by
  intro fuel
  cases fuel with
  | zero => intro nodeId vis ns out h; simp [moveSubtreeAux] at h
  | succ f =>
    intro nodeId vis ns out h
    simp only [moveSubtreeAux] at h
    by_cases hv : nodeId ∈ vis
    · simp only [if_pos hv] at h; cases h; exact hv
    · simp only [if_neg hv] at h
      cases hfind : findNode ns nodeId with
      | none => rw [hfind] at h; cases h; exact Finset.mem_insert_self _ _
      | some n0 =>
        rw [hfind] at h
        exact moveChildrenAux_mono dx dy f (moveSubtreeAux_mono dx dy f) _ _ _ out h
          (Finset.mem_insert_self _ _)

theorem moveChildrenAux_total [Add α] (dx dy : α) (fuel : ℕ)
    (ih : ∀ nodeId vis ns, (idsOf ns \ vis).card < fuel →
      (moveSubtreeAux dx dy fuel nodeId vis ns).isSome) :
    ∀ cs vis ns, (idsOf ns \ vis).card < fuel →
      (moveChildrenAux dx dy fuel cs vis ns).isSome := by
  intro cs
  induction cs with
  | nil => intro vis ns _; simp [moveChildrenAux]
  | cons c cs ihcs =>
    intro vis ns hcard
    simp only [moveChildrenAux]
    cases hstep : moveSubtreeAux dx dy fuel c vis ns with
    | none =>
      exact absurd (hstep ▸ ih c vis ns hcard) (by simp)
    | some mid =>
      have hids : idsOf mid.1 = idsOf ns :=
        idsOf_eq_of_struct (moveSubtreeAux_struct dx dy fuel c vis ns mid hstep)
      have hsub : vis ⊆ mid.2 := moveSubtreeAux_mono dx dy fuel c vis ns mid hstep
      have hcard2 : (idsOf mid.1 \ mid.2).card < fuel := by
        refine lt_of_le_of_lt ?_ hcard
        apply Finset.card_le_card
        rw [hids]
        exact Finset.sdiff_subset_sdiff (Finset.Subset.refl _) hsub
      exact ihcs mid.2 mid.1 hcard2

theorem moveSubtreeAux_total [Add α] (dx dy : α) :
    ∀ fuel nodeId vis ns, (idsOf ns \ vis).card < fuel →
      (moveSubtreeAux dx dy fuel nodeId vis ns).isSome := by
  intro fuel
  induction fuel with
  | zero => intro nodeId vis ns h; omega
  | succ f ihf =>
    intro nodeId vis ns hcard
    simp only [moveSubtreeAux]
    by_cases hv : nodeId ∈ vis
    · simp [hv]
    · simp only [if_neg hv]
      cases hfind : findNode ns nodeId with
      | none => simp
      | some n0 =>
        have hpres : nodeId ∈ idsOf ns := by
          have := List.find?_some hfind
          have hmem := List.mem_of_find?_eq_some hfind
          simp only [decide_eq_true_eq] at this
          simp [idsOf, List.mem_map]
          exact ⟨n0, hmem, this⟩
        have hmemsd : nodeId ∈ idsOf ns \ vis := Finset.mem_sdiff.mpr ⟨hpres, hv⟩
        have hcard2 :
            (idsOf (updateFirst ns nodeId
              (fun n => { n with x := n.x + dx, y := n.y + dy })) \ insert nodeId vis).card
              < f := by
          have hids : idsOf (updateFirst ns nodeId
              (fun n => { n with x := n.x + dx, y := n.y + dy })) = idsOf ns :=
            idsOf_eq_of_struct (updateFirst_map_struct ns nodeId _ (fun n => rfl))
          rw [hids]
          have hlt : (idsOf ns \ insert nodeId vis).card < (idsOf ns \ vis).card := by
            apply Finset.card_lt_card
            constructor
            · intro x hx
              rcases Finset.mem_sdiff.mp hx with ⟨hx1, hx2⟩
              exact Finset.mem_sdiff.mpr ⟨hx1, fun hc => hx2 (Finset.mem_insert_of_mem hc)⟩
            · intro hsub
              have := hsub hmemsd
              rcases Finset.mem_sdiff.mp this with ⟨_, hni⟩
              exact hni (Finset.mem_insert_self _ _)
          omega
        exact moveChildrenAux_total dx dy f ihf _ _ _ hcard2

/-- `moveSubtree` never exhausts its structural fuel: the visited set makes
the recursion terminate on every graph, cyclic or not. -/
theorem moveSubtree_total [Add α] (dx dy : α) (nodeId : ℕ) (ns : List (Node α)) :
    (moveSubtreeAux dx dy (ns.length + 1) nodeId ∅ ns).isSome := by
  apply moveSubtreeAux_total
  simp only [Finset.sdiff_empty]
  calc (idsOf ns).card ≤ (ns.map (·.id)).length := List.toFinset_card_le _
    _ = ns.length := List.length_map _ _
    _ < ns.length + 1 := Nat.lt_succ_self _

/-- Frame: `moveSubtree` changes only node positions. -/
theorem moveSubtree_map_struct [Add α] (dx dy : α) (nodeId : ℕ) (ns : List (Node α)) :
    (moveSubtree dx dy nodeId ns).map Node.struct = ns.map Node.struct := by
  unfold moveSubtree
  cases h : moveSubtreeAux dx dy (ns.length + 1) nodeId ∅ ns with
  | none => rfl
  | some out => exact moveSubtreeAux_struct dx dy _ _ _ _ out h

/-- Translate a node by `(dx, dy)` when its id lies in `R`, else leave it. -/
def translateIf [Add α] (dx dy : α) (R : Finset ℕ) (n : Node α) : Node α :=
  if n.id ∈ R then { n with x := n.x + dx, y := n.y + dy } else n

@[simp] theorem translateIf_empty [Add α] (dx dy : α) (n : Node α) :
    translateIf dx dy ∅ n = n := by simp [translateIf]

theorem translateIf_comp [Add α] (dx dy : α) {R₁ R₂ : Finset ℕ} (hd : Disjoint R₁ R₂)
    (n : Node α) :
    translateIf dx dy R₂ (translateIf dx dy R₁ n) = translateIf dx dy (R₁ ∪ R₂) n := by
  unfold translateIf
  by_cases h1 : n.id ∈ R₁
  · have h2 : n.id ∉ R₂ := Finset.disjoint_left.mp hd h1
    simp [h1, h2]
  · by_cases h2 : n.id ∈ R₂ <;> simp [h1, h2]

theorem sdiff_union_sdiff_eq {V A B : Finset ℕ} (h1 : V ⊆ A) (h2 : A ⊆ B) :
    (A \ V) ∪ (B \ A) = B \ V := by
  ext x
  simp only [Finset.mem_union, Finset.mem_sdiff]
  constructor
  · rintro (⟨hx, hv⟩ | ⟨hx, ha⟩)
    · exact ⟨h2 hx, hv⟩
    · exact ⟨hx, fun hv => ha (h1 hv)⟩
  · rintro ⟨hx, hv⟩
    by_cases ha : x ∈ A
    · exact Or.inl ⟨ha, hv⟩
    · exact Or.inr ⟨hx, ha⟩

theorem insert_sdiff_self_eq {v : ℕ} {V W : Finset ℕ} (hv : v ∉ V)
    (hW : insert v V ⊆ W) :
    ({v} : Finset ℕ) ∪ (W \ insert v V) = W \ V := by
  ext x
  simp only [Finset.mem_union, Finset.mem_sdiff, Finset.mem_singleton, Finset.mem_insert]
  constructor
  · rintro (rfl | ⟨hx, hni⟩)
    · exact ⟨hW (Finset.mem_insert_self _ _), hv⟩
    · exact ⟨hx, fun hmem => hni (Or.inr hmem)⟩
  · rintro ⟨hx, hnv⟩
    by_cases hxv : x = v
    · exact Or.inl hxv
    · exact Or.inr ⟨hx, fun hc => hc.elim hxv hnv⟩

theorem map_eq_self_of {β : Type} {l : List β} {f : β → β} (h : ∀ x ∈ l, f x = x) :
    l.map f = l := by
  induction l with
  | nil => rfl
  | cons x l ih =>
    simp only [List.map_cons]
    rw [h x (List.mem_cons_self _ _), ih (fun y hy => h y (List.mem_cons_of_mem _ hy))]

theorem map_translateIf_empty [Add α] (dx dy : α) (ns : List (Node α)) :
    ns.map (translateIf dx dy ∅) = ns :=
  map_eq_self_of (fun n _ => translateIf_empty dx dy n)

/-- Under unique ids, updating the first match is updating every match. -/
theorem updateFirst_eq_map {ns : List (Node α)} (hnd : (ns.map (·.id)).Nodup)
    (i : ℕ) (f : Node α → Node α) :
    updateFirst ns i f = ns.map (fun n => if n.id = i then f n else n) := by
  induction ns with
  | nil => rfl
  | cons n rest ih =>
    simp only [List.map_cons, List.nodup_cons] at hnd
    rw [updateFirst_cons]
    by_cases h : n.id = i
    · have hrest : rest.map (fun m => if m.id = i then f m else m) = rest := by
        apply map_eq_self_of
        intro m hm
        have : m.id ≠ i := fun he => hnd.1 (by
          rw [← h] at he
          exact List.mem_map.mpr ⟨m, hm, he⟩)
        simp [this]
      simp [h, hrest]
    · simp [h, ih hnd.2]

theorem moveChildrenAux_translate [Add α] (dx dy : α) (fuel : ℕ)
    (ih : ∀ nodeId vis ns out, (ns.map (·.id)).Nodup →
      moveSubtreeAux dx dy fuel nodeId vis ns = some out →
      out.1 = ns.map (translateIf dx dy (out.2 \ vis))) :
    ∀ cs vis ns out, (ns.map (·.id)).Nodup →
      moveChildrenAux dx dy fuel cs vis ns = some out →
      out.1 = ns.map (translateIf dx dy (out.2 \ vis)) := by
  intro cs
  induction cs with
  | nil =>
    intro vis ns out hnd h
    simp only [moveChildrenAux] at h
    cases h
    rw [Finset.sdiff_self, map_translateIf_empty]
  | cons c cs ihcs =>
    intro vis ns out hnd h
    simp only [moveChildrenAux] at h
    cases hstep : moveSubtreeAux dx dy fuel c vis ns with
    | none => rw [hstep] at h; cases h
    | some mid =>
      rw [hstep] at h
      have hstruct := moveSubtreeAux_struct dx dy fuel c vis ns mid hstep
      have hnd₁ : (mid.1.map (·.id)).Nodup := by
        rw [map_struct_ids hstruct]; exact hnd
      have h1 := ih c vis ns mid hnd hstep
      have h2 := ihcs mid.2 mid.1 out hnd₁ h
      have hsub1 : vis ⊆ mid.2 := moveSubtreeAux_mono dx dy fuel c vis ns mid hstep
      have hsub2 : mid.2 ⊆ out.2 :=
        moveChildrenAux_mono dx dy fuel (moveSubtreeAux_mono dx dy fuel) cs mid.2 mid.1 out h
      rw [h1] at h2
      rw [h2, List.map_map]
      apply List.map_congr_left
      intro n _
      have hd : Disjoint (mid.2 \ vis) (out.2 \ mid.2) := by
        rw [Finset.disjoint_left]
        intro a ha hb
        exact (Finset.mem_sdiff.mp hb).2 (Finset.mem_sdiff.mp ha).1
      have := translateIf_comp dx dy hd n
      rw [Function.comp_apply, this, sdiff_union_sdiff_eq hsub1 hsub2]

theorem moveSubtreeAux_translate [Add α] (dx dy : α) :
    ∀ fuel nodeId vis ns out, (ns.map (·.id)).Nodup →
      moveSubtreeAux dx dy fuel nodeId vis ns = some out →
      out.1 = ns.map (translateIf dx dy (out.2 \ vis)) := by
  intro fuel
  induction fuel with
  | zero => intro nodeId vis ns out _ h; simp [moveSubtreeAux] at h
  | succ f ihf =>
    intro nodeId vis ns out hnd h
    simp only [moveSubtreeAux] at h
    by_cases hv : nodeId ∈ vis
    · simp only [if_pos hv] at h; cases h
      rw [Finset.sdiff_self, map_translateIf_empty]
    · simp only [if_neg hv] at h
      cases hfind : findNode ns nodeId with
      | none =>
        rw [hfind] at h; cases h
        have habs : ∀ n ∈ ns, n.id ≠ nodeId := by
          intro n hn
          have := List.find?_eq_none.mp hfind n hn
          simpa using this
        simp only
        rw [eq_comm]
        apply map_eq_self_of
        intro n hn
        have : n.id ∉ insert nodeId vis \ vis := by
          intro hc
          rcases Finset.mem_sdiff.mp hc with ⟨h1, h2⟩
          rcases Finset.mem_insert.mp h1 with h3 | h3
          · exact habs n hn h3
          · exact h2 h3
        simp [translateIf, this]
      | some n0 =>
        rw [hfind] at h
        set mv := fun n : Node α => { n with x := n.x + dx, y := n.y + dy }
        have hupd : updateFirst ns nodeId mv
            = ns.map (translateIf dx dy {nodeId}) := by
          rw [updateFirst_eq_map hnd]
          apply List.map_congr_left
          intro n _
          simp [translateIf, Finset.mem_singleton, mv]
        have hnd₁ : ((updateFirst ns nodeId mv).map (·.id)).Nodup := by
          rw [map_struct_ids (updateFirst_map_struct ns nodeId mv (fun n => rfl))]
          exact hnd
        have h2 := moveChildrenAux_translate dx dy f ihf _ _ _ out hnd₁ h
        have hsub : insert nodeId vis ⊆ out.2 :=
          moveChildrenAux_mono dx dy f (moveSubtreeAux_mono dx dy f) _ _ _ out h
        rw [hupd] at h2
        rw [h2, List.map_map]
        apply List.map_congr_left
        intro n _
        have hd : Disjoint ({nodeId} : Finset ℕ) (out.2 \ insert nodeId vis) := by
          rw [Finset.disjoint_left]
          intro a ha hb
          rw [Finset.mem_singleton] at ha
          subst ha
          exact (Finset.mem_sdiff.mp hb).2 (Finset.mem_insert_self _ _)
        have := translateIf_comp dx dy hd n
        rw [Function.comp_apply, this, insert_sdiff_self_eq hv hsub]

/-- Every child id handed to the loop ends up visited. -/
theorem moveChildrenAux_mem_all [Add α] (dx dy : α) (fuel : ℕ) :
    ∀ cs vis ns out, moveChildrenAux dx dy fuel cs vis ns = some out →
      ∀ c ∈ cs, c ∈ out.2 := by
  intro cs
  induction cs with
  | nil => intro vis ns out h c hc; cases hc
  | cons c cs ihcs =>
    intro vis ns out h d hd
    simp only [moveChildrenAux] at h
    cases hstep : moveSubtreeAux dx dy fuel c vis ns with
    | none => rw [hstep] at h; cases h
    | some mid =>
      rw [hstep] at h
      rcases List.mem_cons.mp hd with rfl | hd2
      · have h1 : d ∈ mid.2 := moveSubtreeAux_mem dx dy fuel d vis ns mid hstep
        exact moveChildrenAux_mono dx dy fuel (moveSubtreeAux_mono dx dy fuel)
          cs mid.2 mid.1 out h h1
      · exact ihcs mid.2 mid.1 out h d hd2

theorem moveChildrenAux_closure [Add α] (dx dy : α) (fuel : ℕ)
    (ih : ∀ nodeId vis ns out, moveSubtreeAux dx dy fuel nodeId vis ns = some out →
      ∀ j, j ∈ out.2 → j ∉ vis → j ∈ idsOf ns →
        ∀ c ∈ ns.map Node.struct, j ∈ c.parentIds → c.id ∈ out.2) :
    ∀ cs vis ns out, moveChildrenAux dx dy fuel cs vis ns = some out →
      ∀ j, j ∈ out.2 → j ∉ vis → j ∈ idsOf ns →
        ∀ c ∈ ns.map Node.struct, j ∈ c.parentIds → c.id ∈ out.2 := by
  intro cs
  induction cs with
  | nil =>
    intro vis ns out h j hj hjv _ c _ _
    simp only [moveChildrenAux] at h
    cases h
    exact absurd hj hjv
  | cons c cs ihcs =>
    intro vis ns out h j hj hjv hjp d hd hjd
    simp only [moveChildrenAux] at h
    cases hstep : moveSubtreeAux dx dy fuel c vis ns with
    | none => rw [hstep] at h; cases h
    | some mid =>
      rw [hstep] at h
      have hstruct := moveSubtreeAux_struct dx dy fuel c vis ns mid hstep
      by_cases hjm : j ∈ mid.2
      · have := ih c vis ns mid hstep j hjm hjv hjp d hd hjd
        exact moveChildrenAux_mono dx dy fuel (moveSubtreeAux_mono dx dy fuel)
          cs mid.2 mid.1 out h this
      · have hjp2 : j ∈ idsOf mid.1 := by rw [idsOf_eq_of_struct hstruct]; exact hjp
        have hd2 : d ∈ mid.1.map Node.struct := by rw [hstruct]; exact hd
        exact ihcs mid.2 mid.1 out h j hj hjm hjp2 d hd2 hjd

/-- A newly visited, present node has all of its children visited:
the DFS processes the full child list of every node it reaches. -/
theorem moveSubtreeAux_closure [Add α] (dx dy : α) :
    ∀ fuel nodeId vis ns out, moveSubtreeAux dx dy fuel nodeId vis ns = some out →
      ∀ j, j ∈ out.2 → j ∉ vis → j ∈ idsOf ns →
        ∀ c ∈ ns.map Node.struct, j ∈ c.parentIds → c.id ∈ out.2 := by
  intro fuel
  induction fuel with
  | zero => intro nodeId vis ns out h; simp [moveSubtreeAux] at h
  | succ f ihf =>
    intro nodeId vis ns out h j hj hjv hjp c hc hjc
    simp only [moveSubtreeAux] at h
    by_cases hv : nodeId ∈ vis
    · simp only [if_pos hv] at h; cases h; exact absurd hj hjv
    · simp only [if_neg hv] at h
      cases hfind : findNode ns nodeId with
      | none =>
        rw [hfind] at h; cases h
        rcases Finset.mem_insert.mp hj with rfl | hj2
        · exfalso
          rcases List.mem_map.mp ((List.mem_toFinset).mp hjp) with ⟨n, hn, hid⟩
          have := List.find?_eq_none.mp hfind n hn
          simp [hid] at this
        · exact absurd hj2 hjv
      | some n0 =>
        rw [hfind] at h
        set mv := fun n : Node α => { n with x := n.x + dx, y := n.y + dy } with hmv
        have hupdstruct : (updateFirst ns nodeId mv).map Node.struct = ns.map Node.struct :=
          updateFirst_map_struct ns nodeId mv (fun n => rfl)
        by_cases hjn : j = nodeId
        · subst hjn
          rcases List.mem_map.mp hc with ⟨m, hm, hmc⟩
          have hm1 : ∃ m1 ∈ updateFirst ns j mv, m1.struct = c := by
            have : c ∈ (updateFirst ns j mv).map Node.struct := by
              rw [hupdstruct]; exact hc
            rcases List.mem_map.mp this with ⟨m1, hm1, hs⟩
            exact ⟨m1, hm1, hs⟩
          rcases hm1 with ⟨m1, hm1mem, hm1s⟩
          have hchild : m1 ∈ childrenOf (updateFirst ns j mv) j := by
            apply List.mem_filter.mpr
            refine ⟨hm1mem, ?_⟩
            have : m1.parentIds = c.parentIds := by rw [← hm1s]; rfl
            simp [this, hjc]
          have hcid : c.id ∈ (childrenOf (updateFirst ns j mv) j).map (·.id) := by
            apply List.mem_map.mpr
            refine ⟨m1, hchild, ?_⟩
            rw [← hm1s]; rfl
          exact moveChildrenAux_mem_all dx dy f _ _ _ out h c.id hcid
        · have hjv2 : j ∉ insert nodeId vis := by
            intro hcon
            rcases Finset.mem_insert.mp hcon with h1 | h1
            · exact hjn h1
            · exact hjv h1
          have hjp2 : j ∈ idsOf (updateFirst ns nodeId mv) := by
            rw [idsOf_eq_of_struct hupdstruct]; exact hjp
          have hc2 : c ∈ (updateFirst ns nodeId mv).map Node.struct := by
            rw [hupdstruct]; exact hc
          exact moveChildrenAux_closure dx dy f ihf _ _ _ out h j hj hjv2 hjp2 c hc2 hjc

/-- Parent-to-child edge over the structural view of the canvas:
`edgeOf L p c` holds when some node with id `c` lists `p` among its parents. -/
def edgeOf (L : List NodeStruct) (p c : ℕ) : Prop :=
  ∃ n ∈ L, n.id = c ∧ p ∈ n.parentIds

/-- C4.  `moveSubtree(id, dx, dy)` terminates on every graph (including
shared nodes and cycles: the fuel `nodes.length + 1` is never exhausted),
and the resulting canvas is the input canvas with a single set `R` of node
ids translated by exactly `(dx, dy)` — so every node moves at most once —
where `R` covers every node reachable from `id` along parent edges,
including shared nodes, which therefore move exactly once. -/
theorem moveSubtree_claim4 [Add α] (dx dy : α) (nodeId : ℕ) (ns : List (Node α))
    (hnd : (ns.map (·.id)).Nodup) (hpres : nodeId ∈ idsOf ns) :
    (moveSubtreeAux dx dy (ns.length + 1) nodeId ∅ ns).isSome ∧
    ∃ R : Finset ℕ, moveSubtree dx dy nodeId ns = ns.map (translateIf dx dy R) ∧
      ∀ j, Relation.ReflTransGen (edgeOf (ns.map Node.struct)) nodeId j → j ∈ R := by
  refine ⟨moveSubtree_total dx dy nodeId ns, ?_⟩
  cases hrun : moveSubtreeAux dx dy (ns.length + 1) nodeId ∅ ns with
  | none =>
    exact absurd (moveSubtree_total dx dy nodeId ns) (by rw [hrun]; simp)
  | some out =>
    refine ⟨out.2, ?_, ?_⟩
    · unfold moveSubtree
      rw [hrun]
      have := moveSubtreeAux_translate dx dy (ns.length + 1) nodeId ∅ ns out hnd hrun
      rw [Finset.sdiff_empty] at this
      exact this
    · intro j hreach
      have key : ∀ k, Relation.ReflTransGen (edgeOf (ns.map Node.struct)) nodeId k →
          k ∈ idsOf ns ∧ k ∈ out.2 := by
        intro k hk
        induction hk with
        | refl =>
          exact ⟨hpres, moveSubtreeAux_mem dx dy _ _ _ _ out hrun⟩
        | tail hab e ih2 =>
          rcases e with ⟨n, hn, hnid, hpin⟩
          rcases ih2 with ⟨hkpres, hkvis⟩
          refine ⟨?_, ?_⟩
          · rcases List.mem_map.mp hn with ⟨m, hm, hms⟩
            apply List.mem_toFinset.mpr
            apply List.mem_map.mpr
            refine ⟨m, hm, ?_⟩
            rw [← hnid, ← hms]; rfl
          · have := moveSubtreeAux_closure dx dy _ _ _ _ out hrun _ hkvis
              (Finset.not_mem_empty _) hkpres n hn hpin
            rw [hnid] at this
            exact this
      exact (key j hreach).2

/-- A concrete diamond graph: root `0`, children `1` and `2`, and the
shared node `3` with both `1` and `2` as parents. -/
def sharedGraph : List (Node ℚ) :=
  [⟨0, 0, 0, [], none, "", "", false, []⟩,
   ⟨1, 10, 0, [0], none, "", "", false, []⟩,
   ⟨2, 0, 10, [0], none, "", "", false, []⟩,
   ⟨3, 10, 10, [1, 2], none, "", "", false, []⟩]

theorem moveSubtree_claim4_witness :
    (moveSubtreeAux (1 : ℚ) 2 (sharedGraph.length + 1) 0 ∅ sharedGraph).isSome ∧
    ∃ R : Finset ℕ,
      moveSubtree (1 : ℚ) 2 0 sharedGraph = sharedGraph.map (translateIf 1 2 R) ∧
      ∀ j, Relation.ReflTransGen (edgeOf (sharedGraph.map Node.struct)) 0 j → j ∈ R :=
  moveSubtree_claim4 1 2 0 sharedGraph (by decide) (by decide)

/-! ### autoLayout (src/script.js lines 2477-2563)

`autoLayout` re-positions every node in a tree layout: a visited-guarded
depth-first pass assigns positions level by level, then the whole layout is
shifted so that its bounding box is centred on the screen centre
`(centerX, centerY)` (the JS `window.innerWidth/2`, `window.innerHeight/2`,
taken here as parameters).  It mutates positions only, which is all the
structural claims need.  The fuel-exhaustion and node-not-found branches
are unreachable: the traversal starts at present roots and recurses only
into present children, and each recursion level inserts a fresh id into the
shared visited set. -/

mutual

/-- `layoutNode(nodeId, level, startX)` of src/script.js. -/
def layoutNodeAux [LinearOrderedField α] :
    ℕ → ℕ → ℕ → α → List (Node α) → Finset ℕ → (List (Node α) × Finset ℕ) × α
  | 0, _, _, startX, s, vis => ((s, vis), startX)
  | fuel+1, nodeId, level, startX, s, vis =>
    if nodeId ∈ vis then ((s, vis), startX)
    else
      let vis₁ := insert nodeId vis
      match findNode s nodeId with
      | none => ((s, vis₁), startX)
      | some _ =>
        match childrenOf s nodeId with
        | [] =>
          let s₁ := updateFirst s nodeId
            (fun n => { n with x := startX, y := (level : α) * 300 })
          ((s₁, vis₁), startX + 650)
        | c0 :: crest =>
          let r := layoutChildrenAux fuel ((c0 :: crest).map (·.id)) (level + 1) startX s vis₁
          let s₁ := r.1.1
          let lastId := (c0 :: crest).getLast (List.cons_ne_nil c0 crest) |>.id
          match findNode s₁ c0.id, findNode s₁ lastId with
          | some fc, some lc =>
            let s₂ := updateFirst s₁ nodeId
              (fun n => { n with x := (fc.x + lc.x) / 2, y := (level : α) * 300 })
            ((s₂, r.1.2), r.2)
          | _, _ => ((s₁, r.1.2), r.2)
termination_by fuel _ _ _ _ _ => (fuel, 0)

/-- The `children.forEach(child => { childX = layoutNode(child.id, level+1, childX) })`
loop. -/
def layoutChildrenAux [LinearOrderedField α] :
    ℕ → List ℕ → ℕ → α → List (Node α) → Finset ℕ → (List (Node α) × Finset ℕ) × α
  | _, [], _, childX, s, vis => ((s, vis), childX)
  | fuel, c :: cs, level, childX, s, vis =>
    let r := layoutNodeAux fuel c level childX s vis
    layoutChildrenAux fuel cs level r.2 r.1.1 r.1.2
termination_by fuel cs _ _ _ _ => (fuel, cs.length + 1)

end

/-- The `layoutRoots.forEach(root => { nextRootX = layoutNode(root.id, 0, nextRootX) + 100 })`
loop. -/
def layoutRootsAux [LinearOrderedField α] (fuel : ℕ) :
    List ℕ → α → List (Node α) → Finset ℕ → List (Node α) × Finset ℕ
  | [], _, s, vis => (s, vis)
  | r :: rs, nextRootX, s, vis =>
    let res := layoutNodeAux fuel r 0 nextRootX s vis
    layoutRootsAux fuel rs (res.2 + 100) res.1.1 res.1.2

/-- Fold-based minimum of a list (the JS `Math.min` fold starting from
`Infinity`; `none` plays the role of `Infinity` and is only reached for the
empty canvas, which `autoLayout` returns early). -/
def listMin [LinearOrder α] (xs : List α) : Option α :=
  xs.foldl (fun acc v => match acc with | none => some v | some a => some (min a v)) none

def listMax [LinearOrder α] (xs : List α) : Option α :=
  xs.foldl (fun acc v => match acc with | none => some v | some a => some (max a v)) none

/-- `autoLayout(resetView)` of src/script.js, restricted to its effect on
the node collection (pan/scale handling is viewport-only). -/
def autoLayout [LinearOrderedField α] (centerX centerY : α) (ns : List (Node α)) :
    List (Node α) :=
  match ns with
  | [] => ns
  | n0 :: _ =>
    let roots := ns.filter (fun n => n.parentIds.length = 0)
    let layoutRootIds := if roots.length > 0 then roots.map (·.id) else [n0.id]
    let r := layoutRootsAux (ns.length + 2) layoutRootIds 0 ns ∅
    let s₁ := r.1
    let minX := (listMin (s₁.map (·.x))).getD 0
    let minY := (listMin (s₁.map (·.y))).getD 0
    let maxX := (listMax (s₁.map (·.x))).getD 0
    let maxY := (listMax (s₁.map (·.y))).getD 0
    let shiftX := centerX - (minX + (maxX - minX) / 2)
    let shiftY := centerY - (minY + (maxY - minY) / 2)
    s₁.map (fun n => { n with x := n.x + shiftX, y := n.y + shiftY })

theorem layoutChildrenAux_struct [LinearOrderedField α] (fuel : ℕ)
    (ih : ∀ nodeId level startX s vis,
      ((layoutNodeAux (α := α) fuel nodeId level startX s vis).1.1).map Node.struct
        = s.map Node.struct) :
    ∀ cs level childX s vis,
      ((layoutChildrenAux (α := α) fuel cs level childX s vis).1.1).map Node.struct
        = s.map Node.struct := by
  intro cs
  induction cs with
  | nil => intro level childX s vis; simp only [layoutChildrenAux]
  | cons c cs ihcs =>
    intro level childX s vis
    simp only [layoutChildrenAux]
    exact (ihcs _ _ _ _).trans (ih c level childX s vis)

theorem layoutNodeAux_struct [LinearOrderedField α] :
    ∀ fuel nodeId level startX (s : List (Node α)) vis,
      ((layoutNodeAux (α := α) fuel nodeId level startX s vis).1.1).map Node.struct
        = s.map Node.struct := by
  intro fuel
  induction fuel with
  | zero => intro nodeId level startX s vis; simp only [layoutNodeAux]
  | succ f ihf =>
    intro nodeId level startX s vis
    simp only [layoutNodeAux]
    by_cases hv : nodeId ∈ vis
    · simp [hv]
    · simp only [if_neg hv]
      cases hfind : findNode s nodeId with
      | none => rfl
      | some n0 =>
        cases hch : childrenOf s nodeId with
        | nil =>
          simp only
          exact updateFirst_map_struct s nodeId _ (fun n => rfl)
        | cons c0 crest =>
          simp only
          have hrec := layoutChildrenAux_struct f ihf ((c0 :: crest).map (·.id))
            (level + 1) startX s (insert nodeId vis)
          cases hfc : findNode (layoutChildrenAux (α := α) f ((c0 :: crest).map (·.id))
              (level + 1) startX s (insert nodeId vis)).1.1 c0.id with
          | none => simp only [hfc]; exact hrec
          | some fc =>
            cases hlc : findNode (layoutChildrenAux (α := α) f ((c0 :: crest).map (·.id))
                (level + 1) startX s (insert nodeId vis)).1.1
                (((c0 :: crest).getLast (List.cons_ne_nil c0 crest)).id) with
            | none => simp only [hfc, hlc]; exact hrec
            | some lc =>
              simp only [hfc, hlc]
              exact (updateFirst_map_struct _ nodeId
                (fun n => { n with x := (fc.x + lc.x) / 2, y := (level : α) * 300 })
                (fun n => rfl)).trans hrec

theorem layoutRootsAux_struct [LinearOrderedField α] (fuel : ℕ) :
    ∀ rs nextRootX (s : List (Node α)) vis,
      ((layoutRootsAux (α := α) fuel rs nextRootX s vis).1).map Node.struct
        = s.map Node.struct := by
  intro rs
  induction rs with
  | nil => intro nextRootX s vis; rfl
  | cons r rs ihrs =>
    intro nextRootX s vis
    simp only [layoutRootsAux]
    exact (ihrs _ _ _).trans (layoutNodeAux_struct fuel r 0 nextRootX s vis)

theorem map_struct_map_update [LinearOrderedField α] (s : List (Node α))
    (f : Node α → Node α) (hf : ∀ n, (f n).struct = n.struct) :
    (s.map f).map Node.struct = s.map Node.struct := by
  rw [List.map_map]
  exact List.map_congr_left (fun n _ => hf n)

/-- Frame: `autoLayout` changes only node positions. -/
theorem autoLayout_map_struct [LinearOrderedField α] (centerX centerY : α)
    (ns : List (Node α)) :
    (autoLayout centerX centerY ns).map Node.struct = ns.map Node.struct := by
  cases ns with
  | nil => rfl
  | cons n0 rest =>
    simp only [autoLayout]
    refine Eq.trans ?_ (layoutRootsAux_struct ((n0 :: rest).length + 2)
      (if ((n0 :: rest).filter (fun n => n.parentIds.length = 0)).length > 0
       then ((n0 :: rest).filter (fun n => n.parentIds.length = 0)).map (·.id)
       else [n0.id]) 0 (n0 :: rest) ∅)
    exact map_struct_map_update _ _ (fun n => rfl)

/-! ### deleteNode (src/script.js lines 1791-1893)

`deleteNode(nodeId)` seeds `nodesToDelete` with the node, then repeatedly
scans all nodes (`findOrphans`) adding any node that is not yet marked,
had at least one parent, and whose entire parent set is marked, until a
pass marks nothing new.  All marked nodes are removed in one step, every
survivor's `parentIds` is filtered against the marked set, and the
survivors are re-laid out via `autoLayout(false)`. -/

/-- One `findOrphans()` pass of src/script.js: folds over the node list,
threading the `nodesToDelete` set and the `changed` flag. -/
def findOrphansPass (D : Finset ℕ) (chg : Bool) : List (Node α) → Finset ℕ × Bool
  | [] => (D, chg)
  | n :: rest =>
    if n.id ∈ D then findOrphansPass D chg rest
    else if n.parentIds.any (fun p => p ∈ D) then
      if (n.parentIds.filter (fun p => p ∉ D)).length = 0 ∧ 0 < n.parentIds.length then
        findOrphansPass (insert n.id D) true rest
      else findOrphansPass D chg rest
    else findOrphansPass D chg rest

/-- `while (findOrphans()) { }`: iterate passes until a pass marks nothing.
Fuel `nodes.length + 1` always reaches the fixed point
(`deleteLoop_fixpoint`). -/
def deleteLoop (ns : List (Node α)) : ℕ → Finset ℕ → Finset ℕ
  | 0, D => D
  | fuel+1, D =>
    let r := findOrphansPass D false ns
    if r.2 then deleteLoop ns fuel r.1 else D

/-- The set of node ids marked for deletion by `deleteNode(nodeId)`. -/
def deleteMarked (ns : List (Node α)) (nodeId : ℕ) : Finset ℕ :=
  deleteLoop ns (ns.length + 1) {nodeId}

/-- `deleteNode(nodeId)` of src/script.js (effect on the node collection;
the trailing view-centering mutates only pan/scale). -/
def deleteNode [LinearOrderedField α] (centerX centerY : α) (nodeId : ℕ)
    (ns : List (Node α)) : List (Node α) :=
  match findNode ns nodeId with
  | none => ns
  | some _ =>
    let D := deleteMarked ns nodeId
    let survivors := (ns.filter (fun n => n.id ∉ D)).map
      (fun n => { n with parentIds := n.parentIds.filter (fun p => p ∉ D) })
    autoLayout centerX centerY survivors

theorem findOrphansPass_mono (D : Finset ℕ) (chg : Bool) :
    ∀ ns : List (Node α), D ⊆ (findOrphansPass D chg ns).1 := by
  intro ns
  induction ns generalizing D chg with
  | nil => exact Finset.Subset.refl _
  | cons n rest ih =>
    simp only [findOrphansPass]
    by_cases h1 : n.id ∈ D
    · simp only [if_pos h1]; exact ih D chg
    · simp only [if_neg h1]
      by_cases h2 : n.parentIds.any (fun p => p ∈ D)
      · simp only [if_pos h2]
        by_cases h3 : (n.parentIds.filter (fun p => p ∉ D)).length = 0 ∧ 0 < n.parentIds.length
        · simp only [if_pos h3]
          exact (Finset.subset_insert _ _).trans (ih (insert n.id D) true)
        · simp only [if_neg h3]; exact ih D chg
      · simp only [if_neg h2]; exact ih D chg

theorem findOrphansPass_true (D : Finset ℕ) :
    ∀ ns : List (Node α), (findOrphansPass D true ns).2 = true := by
  intro ns
  induction ns generalizing D with
  | nil => rfl
  | cons n rest ih =>
    simp only [findOrphansPass]
    by_cases h1 : n.id ∈ D
    · simp only [if_pos h1]; exact ih D
    · simp only [if_neg h1]
      by_cases h2 : n.parentIds.any (fun p => p ∈ D)
      · simp only [if_pos h2]
        by_cases h3 : (n.parentIds.filter (fun p => p ∉ D)).length = 0 ∧ 0 < n.parentIds.length
        · simp only [if_pos h3]; exact ih _
        · simp only [if_neg h3]; exact ih D
      · simp only [if_neg h2]; exact ih D

/-- A pass that reports no change marked nothing. -/
theorem findOrphansPass_of_not_changed (D : Finset ℕ) :
    ∀ ns : List (Node α), (findOrphansPass D false ns).2 = false →
      (findOrphansPass D false ns).1 = D := by
  intro ns
  induction ns generalizing D with
  | nil => intro _; rfl
  | cons n rest ih =>
    intro h
    simp only [findOrphansPass] at h ⊢
    by_cases h1 : n.id ∈ D
    · simp only [if_pos h1] at h ⊢; exact ih D h
    · simp only [if_neg h1] at h ⊢
      by_cases h2 : n.parentIds.any (fun p => p ∈ D)
      · simp only [if_pos h2] at h ⊢
        by_cases h3 : (n.parentIds.filter (fun p => p ∉ D)).length = 0 ∧ 0 < n.parentIds.length
        · exfalso
          simp only [if_pos h3] at h
          rw [findOrphansPass_true] at h
          exact Bool.true_eq_false.mp h
        · simp only [if_neg h3] at h ⊢; exact ih D h
      · simp only [if_neg h2] at h ⊢; exact ih D h

/-- A pass that reports a change strictly grew the set. -/
theorem findOrphansPass_of_changed (D : Finset ℕ) :
    ∀ ns : List (Node α), (findOrphansPass D false ns).2 = true →
      D ⊂ (findOrphansPass D false ns).1 := by
  intro ns
  induction ns generalizing D with
  | nil => intro h; cases h
  | cons n rest ih =>
    intro h
    simp only [findOrphansPass] at h ⊢
    by_cases h1 : n.id ∈ D
    · simp only [if_pos h1] at h ⊢; exact ih D h
    · simp only [if_neg h1] at h ⊢
      by_cases h2 : n.parentIds.any (fun p => p ∈ D)
      · simp only [if_pos h2] at h ⊢
        by_cases h3 : (n.parentIds.filter (fun p => p ∉ D)).length = 0 ∧ 0 < n.parentIds.length
        · simp only [if_pos h3] at h ⊢
          constructor
          · exact (Finset.subset_insert _ _).trans (findOrphansPass_mono _ _ _)
          · intro hsub
            have : n.id ∈ (findOrphansPass (insert n.id D) true rest).1 :=
              findOrphansPass_mono _ _ _ (Finset.mem_insert_self _ _)
            exact h1 (hsub this)
        · simp only [if_neg h3] at h ⊢; exact ih D h
      · simp only [if_neg h2] at h ⊢; exact ih D h

/-- Everything a pass adds is the id of some node of the canvas. -/
theorem findOrphansPass_subset (D : Finset ℕ) (chg : Bool) :
    ∀ ns : List (Node α), (findOrphansPass D chg ns).1 ⊆ D ∪ idsOf ns := by
  intro ns
  induction ns generalizing D chg with
  | nil => simp [findOrphansPass]
  | cons n rest ih =>
    simp only [findOrphansPass]
    have hrest : ∀ (D' : Finset ℕ) (c : Bool), D' ⊆ D ∪ idsOf (n :: rest) →
        (findOrphansPass D' c rest).1 ⊆ D ∪ idsOf (n :: rest) := by
      intro D' c hD'
      refine (ih D' c).trans ?_
      intro x hx
      rcases Finset.mem_union.mp hx with hx1 | hx2
      · exact hD' hx1
      · apply Finset.mem_union_right
        simp only [idsOf, List.map_cons, List.toFinset_cons] at *
        exact Finset.mem_insert_of_mem hx2
    by_cases h1 : n.id ∈ D
    · simp only [if_pos h1]
      exact hrest D chg (Finset.subset_union_left)
    · simp only [if_neg h1]
      by_cases h2 : n.parentIds.any (fun p => p ∈ D)
      · simp only [if_pos h2]
        by_cases h3 : (n.parentIds.filter (fun p => p ∉ D)).length = 0 ∧ 0 < n.parentIds.length
        · simp only [if_pos h3]
          apply hrest (insert n.id D) true
          intro x hx
          rcases Finset.mem_insert.mp hx with rfl | hx2
          · apply Finset.mem_union_right
            simp [idsOf]
          · exact Finset.mem_union_left _ hx2
        · simp only [if_neg h3]
          exact hrest D chg (Finset.subset_union_left)
      · simp only [if_neg h2]
        exact hrest D chg (Finset.subset_union_left)

/-- The orphan-marking invariant: every marked id is either the explicitly
deleted node or the id of a present, once-parented node whose entire parent
set is marked. -/
def OrphanInv (ns : List (Node α)) (nodeId : ℕ) (D : Finset ℕ) : Prop :=
  ∀ x ∈ D, x = nodeId ∨
    ∃ n ∈ ns, n.id = x ∧ n.parentIds ≠ [] ∧ ∀ p ∈ n.parentIds, p ∈ D

theorem OrphanInv.mono {ns : List (Node α)} {nodeId : ℕ} {D D' : Finset ℕ}
    (hDD' : D ⊆ D') (hinv : OrphanInv ns nodeId D)
    (hnew : ∀ x ∈ D', x ∉ D → x = nodeId ∨
      ∃ n ∈ ns, n.id = x ∧ n.parentIds ≠ [] ∧ ∀ p ∈ n.parentIds, p ∈ D') :
    OrphanInv ns nodeId D' := by
  intro x hx
  by_cases hxD : x ∈ D
  · rcases hinv x hxD with h | ⟨n, hn, hid, hne, hall⟩
    · exact Or.inl h
    · exact Or.inr ⟨n, hn, hid, hne, fun p hp => hDD' (hall p hp)⟩
  · exact hnew x hx hxD

theorem findOrphansPass_inv (nodeId : ℕ) (allNs : List (Node α)) :
    ∀ (ns : List (Node α)) (D : Finset ℕ) (chg : Bool),
      (∀ n ∈ ns, n ∈ allNs) → OrphanInv allNs nodeId D →
      OrphanInv allNs nodeId (findOrphansPass D chg ns).1 := by
  intro ns
  induction ns with
  | nil => intro D chg _ hinv; exact hinv
  | cons n rest ih =>
    intro D chg hsub hinv
    simp only [findOrphansPass]
    have hsubr : ∀ m ∈ rest, m ∈ allNs := fun m hm => hsub m (List.mem_cons_of_mem _ hm)
    by_cases h1 : n.id ∈ D
    · simp only [if_pos h1]; exact ih D chg hsubr hinv
    · simp only [if_neg h1]
      by_cases h2 : n.parentIds.any (fun p => p ∈ D)
      · simp only [if_pos h2]
        by_cases h3 : (n.parentIds.filter (fun p => p ∉ D)).length = 0 ∧ 0 < n.parentIds.length
        · simp only [if_pos h3]
          apply ih (insert n.id D) true hsubr
          intro x hx
          rcases Finset.mem_insert.mp hx with rfl | hx2
          · right
            refine ⟨n, hsub n (List.mem_cons_self _ _), rfl, ?_, ?_⟩
            · intro hnil
              rw [hnil] at h3
              simp at h3
            · intro p hp
              apply Finset.mem_insert_of_mem
              by_contra hpD
              have : p ∈ n.parentIds.filter (fun q => q ∉ D) :=
                List.mem_filter.mpr ⟨hp, by simpa using hpD⟩
              rw [List.length_eq_zero.mp h3.1] at this
              cases this
          · rcases hinv x hx2 with h | ⟨m, hm, hid, hne, hall⟩
            · exact Or.inl h
            · exact Or.inr ⟨m, hm, hid, hne,
                fun p hp => Finset.mem_insert_of_mem (hall p hp)⟩
        · simp only [if_neg h3]; exact ih D chg hsubr hinv
      · simp only [if_neg h2]; exact ih D chg hsubr hinv

/-- If a pass reports no change, the set is a fixed point: no unmarked node
with at least one parent has all parents marked. -/
theorem findOrphansPass_complete (D : Finset ℕ) :
    ∀ ns : List (Node α), (findOrphansPass D false ns).2 = false →
      ∀ n ∈ ns, n.id ∉ D → n.parentIds ≠ [] → ∃ p ∈ n.parentIds, p ∉ D := by
  intro ns
  induction ns generalizing D with
  | nil => intro _ n hn; cases hn
  | cons m rest ih =>
    intro h n hn hnd hne
    simp only [findOrphansPass] at h
    by_cases h1 : m.id ∈ D
    · simp only [if_pos h1] at h
      rcases List.mem_cons.mp hn with rfl | hn2
      · exact absurd h1 hnd
      · exact ih D h n hn2 hnd hne
    · simp only [if_neg h1] at h
      by_cases h2 : m.parentIds.any (fun p => p ∈ D)
      · simp only [if_pos h2] at h
        by_cases h3 : (m.parentIds.filter (fun p => p ∉ D)).length = 0 ∧ 0 < m.parentIds.length
        · exfalso
          simp only [if_pos h3] at h
          rw [findOrphansPass_true] at h
          exact Bool.true_eq_false.mp h
        · simp only [if_neg h3] at h
          rcases List.mem_cons.mp hn with rfl | hn2
          · -- the head was examined and not marked: some parent is unmarked
            by_contra hall
            push_neg at hall
            apply h3
            constructor
            · rw [List.length_eq_zero]
              apply List.eq_nil_iff_forall_not_mem.mpr
              intro p hp
              rcases List.mem_filter.mp hp with ⟨hp1, hp2⟩
              simp only [decide_eq_true_eq] at hp2
              exact hp2 (hall p hp1)
            · cases hpi : n.parentIds with
              | nil => exact absurd hpi hne
              | cons a l => simp [hpi]
          · exact ih D h n hn2 hnd hne
      · simp only [if_neg h2] at h
        rcases List.mem_cons.mp hn with rfl | hn2
        · -- no parent of the head is marked at all
          by_contra hall
          push_neg at hall
          have hne2 : ∃ p ∈ n.parentIds, p ∈ D := by
            cases hpi : n.parentIds with
            | nil => exact absurd hpi hne
            | cons a l =>
              refine ⟨a, by simp [hpi], ?_⟩
              have := hall a (by simp [hpi])
              exact this
          rcases hne2 with ⟨p, hp, hpD⟩
          apply h2
          rw [List.any_eq_true]
          exact ⟨p, hp, by simpa using hpD⟩
        · exact ih D h n hn2 hnd hne

theorem deleteLoop_mono (ns : List (Node α)) :
    ∀ fuel D, D ⊆ deleteLoop ns fuel D := by
  intro fuel
  induction fuel with
  | zero => intro D; exact Finset.Subset.refl _
  | succ f ih =>
    intro D
    simp only [deleteLoop]
    by_cases hchg : (findOrphansPass D false ns).2
    · simp only [if_pos hchg]
      exact (findOrphansPass_mono D false ns).trans (ih _)
    · simp only [if_neg hchg]
      exact Finset.Subset.refl _

theorem deleteLoop_inv (ns : List (Node α)) (nodeId : ℕ) :
    ∀ fuel D, OrphanInv ns nodeId D → OrphanInv ns nodeId (deleteLoop ns fuel D) := by
  intro fuel
  induction fuel with
  | zero => intro D h; exact h
  | succ f ih =>
    intro D h
    simp only [deleteLoop]
    by_cases hchg : (findOrphansPass D false ns).2
    · simp only [if_pos hchg]
      exact ih _ (findOrphansPass_inv nodeId ns ns D false (fun n hn => hn) h)
    · simp only [if_neg hchg]
      exact h

theorem deleteLoop_subset (ns : List (Node α)) :
    ∀ fuel D, deleteLoop ns fuel D ⊆ D ∪ idsOf ns := by
  intro fuel
  induction fuel with
  | zero => intro D; exact Finset.subset_union_left
  | succ f ih =>
    intro D
    simp only [deleteLoop]
    by_cases hchg : (findOrphansPass D false ns).2
    · simp only [if_pos hchg]
      refine (ih _).trans ?_
      intro x hx
      rcases Finset.mem_union.mp hx with hx1 | hx2
      · exact findOrphansPass_subset D false ns hx1
      · exact Finset.mem_union.mpr (Or.inr hx2)
    · simp only [if_neg hchg]
      exact Finset.subset_union_left

/-- With fuel `nodes.length + 1` the loop reaches a fixed point: one more
pass would mark nothing. -/
theorem deleteLoop_fixpoint (ns : List (Node α)) :
    ∀ fuel D, (idsOf ns \ D).card < fuel →
      (findOrphansPass (deleteLoop ns fuel D) false ns).2 = false := by
  intro fuel
  induction fuel with
  | zero => intro D h; omega
  | succ f ih =>
    intro D hcard
    simp only [deleteLoop]
    by_cases hchg : (findOrphansPass D false ns).2
    case neg =>
      simp only [if_neg hchg]
      exact Bool.not_eq_true _ |>.mp hchg
    case pos =>
      simp only [if_pos hchg]
      apply ih
      have hstrict : D ⊂ (findOrphansPass D false ns).1 :=
        findOrphansPass_of_changed D ns hchg
      have hsub2 : (findOrphansPass D false ns).1 ⊆ D ∪ idsOf ns :=
        findOrphansPass_subset D false ns
      rcases Finset.exists_of_ssubset hstrict with ⟨x, hxin, hxout⟩
      have hxids : x ∈ idsOf ns := by
        rcases Finset.mem_union.mp (hsub2 hxin) with h | h
        · exact absurd h hxout
        · exact h
      have hlt : (idsOf ns \ (findOrphansPass D false ns).1).card < (idsOf ns \ D).card := by
        apply Finset.card_lt_card
        constructor
        · exact Finset.sdiff_subset_sdiff (Finset.Subset.refl _) hstrict.1
        · intro hsub3
          have hx1 : x ∈ idsOf ns \ D := Finset.mem_sdiff.mpr ⟨hxids, hxout⟩
          have hx2 := hsub3 hx1
          exact (Finset.mem_sdiff.mp hx2).2 hxin
      omega

/-- Unique ids make id-equality node-equality. -/
theorem eq_of_id_eq {ns : List (Node α)} (hnd : (ns.map (·.id)).Nodup)
    {n m : Node α} (hn : n ∈ ns) (hm : m ∈ ns) (h : n.id = m.id) : n = m := by
  induction ns with
  | nil => cases hn
  | cons a rest ih =>
    simp only [List.map_cons, List.nodup_cons] at hnd
    rcases List.mem_cons.mp hn with rfl | hn2
    · rcases List.mem_cons.mp hm with rfl | hm2
      · rfl
      · exact absurd (List.mem_map.mpr ⟨m, hm2, h.symm⟩) hnd.1
    · rcases List.mem_cons.mp hm with rfl | hm2
      · exact absurd (List.mem_map.mpr ⟨n, hn2, h⟩) hnd.1
      · exact ih hnd.2 hn2 hm2

theorem findNode_isSome_of_mem {ns : List (Node α)} {j : ℕ} (h : j ∈ idsOf ns) :
    ∃ n₀, findNode ns j = some n₀ := by
  rcases List.mem_map.mp (List.mem_toFinset.mp h) with ⟨n, hn, hid⟩
  rw [← Option.isSome_iff_exists]
  rw [findNode, List.find?_isSome]
  exact ⟨n, hn, by simp [hid]⟩

theorem deleteNode_ids [LinearOrderedField α] (centerX centerY : α) (nodeId : ℕ)
    (ns : List (Node α)) (hpres : nodeId ∈ idsOf ns) :
    (deleteNode centerX centerY nodeId ns).map (·.id)
      = (ns.filter (fun n => n.id ∉ deleteMarked ns nodeId)).map (·.id) := by
  rcases findNode_isSome_of_mem hpres with ⟨n₀, hfind⟩
  simp only [deleteNode, hfind]
  rw [map_struct_ids (autoLayout_map_struct centerX centerY _)]
  rw [List.map_map]
  rfl

theorem deleteNode_structs [LinearOrderedField α] (centerX centerY : α) (nodeId : ℕ)
    (ns : List (Node α)) (hpres : nodeId ∈ idsOf ns) :
    (deleteNode centerX centerY nodeId ns).map Node.struct
      = ((ns.filter (fun n => n.id ∉ deleteMarked ns nodeId)).map
          (fun n => { n with parentIds :=
            n.parentIds.filter (fun p => p ∉ deleteMarked ns nodeId) })).map Node.struct := by
  rcases findNode_isSome_of_mem hpres with ⟨n₀, hfind⟩
  simp only [deleteNode, hfind]
  exact autoLayout_map_struct centerX centerY _

/-- C1 (amended).  After `deleteNode(nodeId)` on a canvas with unique ids:
the deleted node is gone; no surviving node's `parentIds` references a
removed node; every root other than the deleted node itself is still
present; and a non-root node other than the deleted node itself is removed
exactly when its entire parent set is in the marked set `deleteMarked`
(computed as a fixed point over repeated `findOrphans` passes). -/
theorem deleteNode_claim1 [LinearOrderedField α] (centerX centerY : α) (nodeId : ℕ)
    (ns : List (Node α)) (hnd : (ns.map (·.id)).Nodup) (hpres : nodeId ∈ idsOf ns) :
    nodeId ∉ (deleteNode centerX centerY nodeId ns).map (·.id) ∧
    (∀ n' ∈ deleteNode centerX centerY nodeId ns, ∀ p ∈ n'.parentIds,
      p ∈ ns.map (·.id) → p ∈ (deleteNode centerX centerY nodeId ns).map (·.id)) ∧
    (∀ n ∈ ns, n.parentIds = [] → n.id ≠ nodeId →
      n.id ∈ (deleteNode centerX centerY nodeId ns).map (·.id)) ∧
    (∀ n ∈ ns, n.id ≠ nodeId → n.parentIds ≠ [] →
      (n.id ∉ (deleteNode centerX centerY nodeId ns).map (·.id) ↔
        ∀ p ∈ n.parentIds, p ∈ deleteMarked ns nodeId)) := by
  have hids := deleteNode_ids centerX centerY nodeId ns hpres
  have hinv : OrphanInv ns nodeId (deleteMarked ns nodeId) := by
    apply deleteLoop_inv
    intro x hx
    rw [Finset.mem_singleton] at hx
    exact Or.inl hx
  have hmem : ∀ j, j ∈ (deleteNode centerX centerY nodeId ns).map (·.id) ↔
      ∃ n ∈ ns, n.id = j ∧ j ∉ deleteMarked ns nodeId := by
    intro j
    rw [hids]
    constructor
    · intro h
      rcases List.mem_map.mp h with ⟨n, hn, hid⟩
      rcases List.mem_filter.mp hn with ⟨hn2, hfilt⟩
      simp only [decide_eq_true_eq] at hfilt
      exact ⟨n, hn2, hid, hid ▸ hfilt⟩
    · rintro ⟨n, hn, rfl, hnotin⟩
      exact List.mem_map.mpr ⟨n, List.mem_filter.mpr ⟨hn, by simpa using hnotin⟩, rfl⟩
  have hnodeIdIn : nodeId ∈ deleteMarked ns nodeId :=
    deleteLoop_mono ns _ {nodeId} (Finset.mem_singleton_self _)
  have hfix := deleteLoop_fixpoint ns (ns.length + 1) {nodeId} (by
    calc (idsOf ns \ {nodeId}).card ≤ (idsOf ns).card := Finset.card_le_card (Finset.sdiff_subset)
      _ ≤ (ns.map (·.id)).length := List.toFinset_card_le _
      _ = ns.length := List.length_map _ _
      _ < ns.length + 1 := Nat.lt_succ_self _)
  refine ⟨?_, ?_, ?_, ?_⟩
  · intro hcon
    rcases (hmem nodeId).mp hcon with ⟨n, _, _, habs⟩
    exact habs hnodeIdIn
  · intro n' hn' p hp hpids
    have hstructs := deleteNode_structs centerX centerY nodeId ns hpres
    have : n'.struct ∈ (deleteNode centerX centerY nodeId ns).map Node.struct :=
      List.mem_map.mpr ⟨n', hn', rfl⟩
    rw [hstructs] at this
    rcases List.mem_map.mp this with ⟨m, hm, hms⟩
    rcases List.mem_map.mp hm with ⟨n, hn, rfl⟩
    have hpar : n'.parentIds = n.parentIds.filter (fun p => p ∉ deleteMarked ns nodeId) := by
      have := congrArg NodeStruct.parentIds hms
      simpa using this.symm
    have hpD : p ∉ deleteMarked ns nodeId := by
      rw [hpar] at hp
      have := (List.mem_filter.mp hp).2
      simpa using this
    rcases List.mem_map.mp hpids with ⟨m₂, hm₂, hid₂⟩
    exact (hmem p).mpr ⟨m₂, hm₂, hid₂, hpD⟩
  · intro n hn hroot hne
    have hnotin : n.id ∉ deleteMarked ns nodeId := by
      intro hin
      rcases hinv n.id hin with h | ⟨m, hm, hid, hne2, _⟩
      · exact hne h
      · have : m = n := eq_of_id_eq hnd hm hn hid
        rw [this] at hne2
        exact hne2 hroot
    exact (hmem n.id).mpr ⟨n, hn, rfl, hnotin⟩
  · intro n hn hne hroot
    have hiff : n.id ∉ (deleteNode centerX centerY nodeId ns).map (·.id) ↔
        n.id ∈ deleteMarked ns nodeId := by
      constructor
      · intro h
        by_contra hnotin
        exact h ((hmem n.id).mpr ⟨n, hn, rfl, hnotin⟩)
      · intro hin hcon
        rcases (hmem n.id).mp hcon with ⟨m, hm, hid, hnotin⟩
        exact hnotin hin
    rw [hiff]
    constructor
    · intro hin p hp
      rcases hinv n.id hin with h | ⟨m, hm, hid, _, hall⟩
      · exact absurd h hne
      · have : m = n := eq_of_id_eq hnd hm hn hid
        rw [this] at hall
        exact hall p hp
    · intro hall
      by_contra hnotin
      rcases findOrphansPass_complete _ ns hfix n hn hnotin hroot with ⟨p, hp, hpnot⟩
      exact hpnot (hall p hp)

/-- A canvas holding a single root node. -/
def singleRootCanvas : List (Node ℚ) := [⟨0, 0, 0, [], none, "", "", false, []⟩]

/-- C1 counterexample.  The claim as stated says every node whose
`parentIds` was empty before the call — a root — is still present after
`deleteNode`; but `deleteNode` applied to a root removes that root: on a
canvas holding only the root `0`, `deleteNode(0)` leaves the canvas empty. -/
theorem deleteNode_claim1_counterexample :
    (∃ n ∈ singleRootCanvas, n.parentIds = [] ∧ n.id = 0) ∧
    deleteNode (0 : ℚ) 0 0 singleRootCanvas = [] := by
  constructor
  · exact ⟨⟨0, 0, 0, [], none, "", "", false, []⟩, List.mem_singleton_self _, rfl, rfl⟩
  · rfl

theorem deleteNode_claim1_witness :
    0 ∉ (deleteNode (0 : ℚ) 0 0 sharedGraph).map (·.id) ∧
    (∀ n' ∈ deleteNode (0 : ℚ) 0 0 sharedGraph, ∀ p ∈ n'.parentIds,
      p ∈ sharedGraph.map (·.id) → p ∈ (deleteNode (0 : ℚ) 0 0 sharedGraph).map (·.id)) ∧
    (∀ n ∈ sharedGraph, n.parentIds = [] → n.id ≠ 0 →
      n.id ∈ (deleteNode (0 : ℚ) 0 0 sharedGraph).map (·.id)) ∧
    (∀ n ∈ sharedGraph, n.id ≠ 0 → n.parentIds ≠ [] →
      (n.id ∉ (deleteNode (0 : ℚ) 0 0 sharedGraph).map (·.id) ↔
        ∀ p ∈ n.parentIds, p ∈ deleteMarked sharedGraph 0)) :=
  deleteNode_claim1 0 0 0 sharedGraph (by decide) (by decide)

/-! ### cleanupNode (src/script.js lines 867-923)

`cleanupNode(nodeId)` elides a node: every child has the node removed from
its `parentIds` and the node's own (present) parents appended in, skipping
duplicates; then the node itself is spliced out and the survivors re-laid
out.  No cascading deletion occurs. -/

/-- The `parents.forEach(p => { if (!child.parentIds.includes(p.id))
child.parentIds.push(p.id) })` loop. -/
def appendParents (base : List ℕ) (ps : List ℕ) : List ℕ :=
  ps.foldl (fun acc p => if p ∈ acc then acc else acc ++ [p]) base

/-- `nodes.splice(nodes.findIndex(n => n.id === i), 1)`: drop the first
node with the given id. -/
def removeFirst (ns : List (Node α)) (i : ℕ) : List (Node α) :=
  match ns with
  | [] => []
  | n :: rest => if n.id = i then rest else n :: removeFirst rest i

/-- The child-reconnection step of `cleanupNode`: drop `nodeId` from the
child's `parentIds` and append the removed node's present parents,
skipping duplicates; non-children are untouched. -/
def cleanupChildUpdate (ns : List (Node α)) (node : Node α) (nodeId : ℕ)
    (c : Node α) : Node α :=
  if nodeId ∈ c.parentIds then
    { c with parentIds :=
        (appendParents (c.parentIds.filter (fun i => i ≠ nodeId))
          ((ns.filter (fun n => n.id ∈ node.parentIds)).map (·.id))) }
  else c

/-- `cleanupNode(nodeId)` of src/script.js (effect on the node collection;
the trailing view-centering mutates only pan/scale). -/
def cleanupNode [LinearOrderedField α] (centerX centerY : α) (nodeId : ℕ)
    (ns : List (Node α)) : List (Node α) :=
  match findNode ns nodeId with
  | none => ns
  | some node =>
    autoLayout centerX centerY
      (removeFirst (ns.map (cleanupChildUpdate ns node nodeId)) nodeId)

theorem appendParents_mem (ps : List ℕ) :
    ∀ (base : List ℕ) (q : ℕ), q ∈ appendParents base ps ↔ q ∈ base ∨ q ∈ ps := by
  induction ps with
  | nil => intro base q; simp [appendParents]
  | cons p ps ih =>
    intro base q
    simp only [appendParents, List.foldl_cons]
    by_cases hp : p ∈ base
    · simp only [if_pos hp]
      rw [show List.foldl (fun acc p => if p ∈ acc then acc else acc ++ [p]) base ps
        = appendParents base ps from rfl, ih]
      constructor
      · rintro (h | h)
        · exact Or.inl h
        · exact Or.inr (List.mem_cons_of_mem _ h)
      · rintro (h | h)
        · exact Or.inl h
        · rcases List.mem_cons.mp h with rfl | h2
          · exact Or.inl hp
          · exact Or.inr h2
    · simp only [if_neg hp]
      rw [show List.foldl (fun acc p => if p ∈ acc then acc else acc ++ [p]) (base ++ [p]) ps
        = appendParents (base ++ [p]) ps from rfl, ih]
      simp only [List.mem_append, List.mem_singleton, List.mem_cons]
      tauto

theorem appendParents_nodup (ps : List ℕ) :
    ∀ base : List ℕ, base.Nodup → (appendParents base ps).Nodup := by
  induction ps with
  | nil => intro base h; exact h
  | cons p ps ih =>
    intro base h
    simp only [appendParents, List.foldl_cons]
    by_cases hp : p ∈ base
    · simp only [if_pos hp]
      exact ih base h
    · simp only [if_neg hp]
      apply ih
      simp [List.nodup_append, h, hp]

theorem removeFirst_ids (ns : List (Node α)) (i : ℕ) :
    (removeFirst ns i).map (·.id) = (ns.map (·.id)).erase i := by
  induction ns with
  | nil => rfl
  | cons n rest ih =>
    simp only [removeFirst, List.map_cons]
    by_cases h : n.id = i
    · simp only [if_pos h]
      rw [h, List.erase_cons_head]
    · simp only [if_neg h, List.map_cons]
      rw [ih, List.erase_cons_tail]
      simp [h]

theorem removeFirst_mem {ns : List (Node α)} {m : Node α} (hm : m ∈ ns) {i : ℕ}
    (hne : m.id ≠ i) : m ∈ removeFirst ns i := by
  induction ns with
  | nil => cases hm
  | cons n rest ih =>
    simp only [removeFirst]
    rcases List.mem_cons.mp hm with rfl | hm2
    · simp only [if_neg hne]
      exact List.mem_cons_self _ _
    · by_cases h : n.id = i
      · simp only [if_pos h]; exact hm2
      · simp only [if_neg h]
        exact List.mem_cons_of_mem _ (ih hm2)

theorem findNode_eq_of_mem {ns : List (Node α)} (hnd : (ns.map (·.id)).Nodup)
    {node : Node α} (hn : node ∈ ns) {i : ℕ} (hid : node.id = i) :
    findNode ns i = some node := by
  induction ns with
  | nil => cases hn
  | cons a rest ih =>
    simp only [List.map_cons, List.nodup_cons] at hnd
    rcases List.mem_cons.mp hn with rfl | hn2
    · simp [findNode, List.find?_cons, hid]
    · have hane : ¬ a.id = i := by
        intro hc
        apply hnd.1
        exact List.mem_map.mpr ⟨node, hn2, by rw [hid, hc]⟩
      simp only [findNode, List.find?_cons]
      rw [show (decide (a.id = i)) = false by simpa using hane]
      exact ih hnd.2 hn2

@[simp] theorem cleanupChildUpdate_id (ns : List (Node α)) (node : Node α) (nodeId : ℕ)
    (c : Node α) : (cleanupChildUpdate ns node nodeId c).id = c.id := by
  unfold cleanupChildUpdate
  by_cases h : nodeId ∈ c.parentIds <;> simp [h]

/-- C2.  `cleanupNode(n)` removes `n` from the canvas, keeps every other
node (non-cascading, so in particular every child of `n` stays), and gives
each child of `n` the parent set `(old parentIds − {n}) ∪ parents(n)`,
duplicates skipped. -/
theorem cleanupNode_claim2 [LinearOrderedField α] (centerX centerY : α) (nodeId : ℕ)
    (ns : List (Node α)) (node : Node α)
    (hnd : (ns.map (·.id)).Nodup) (hn : node ∈ ns) (hid : node.id = nodeId)
    (hself : nodeId ∉ node.parentIds)
    (hpnd : ∀ m ∈ ns, m.parentIds.Nodup) :
    (nodeId ∉ (cleanupNode centerX centerY nodeId ns).map (·.id)) ∧
    (∀ m ∈ ns, m.id ≠ nodeId →
      m.id ∈ (cleanupNode centerX centerY nodeId ns).map (·.id)) ∧
    (∀ c ∈ ns, nodeId ∈ c.parentIds →
      ∃ c' ∈ cleanupNode centerX centerY nodeId ns, c'.id = c.id ∧
        c'.parentIds.Nodup ∧
        (∀ q, q ∈ c'.parentIds ↔
          (q ∈ c.parentIds ∧ q ≠ nodeId) ∨ ∃ m ∈ ns, m.id = q ∧ q ∈ node.parentIds)) := by
  have hfind : findNode ns nodeId = some node := findNode_eq_of_mem hnd hn hid
  have hrw : cleanupNode centerX centerY nodeId ns
      = autoLayout centerX centerY
        (removeFirst (ns.map (cleanupChildUpdate ns node nodeId)) nodeId) := by
    simp only [cleanupNode, hfind]
  have hids₁ : (ns.map (cleanupChildUpdate ns node nodeId)).map (·.id) = ns.map (·.id) := by
    rw [List.map_map]
    exact List.map_congr_left (fun c _ => cleanupChildUpdate_id ns node nodeId c)
  have hids : (cleanupNode centerX centerY nodeId ns).map (·.id)
      = (ns.map (·.id)).erase nodeId := by
    rw [hrw, map_struct_ids (autoLayout_map_struct centerX centerY _),
      removeFirst_ids, hids₁]
  refine ⟨?_, ?_, ?_⟩
  · rw [hids]
    intro hcon
    exact ((List.Nodup.mem_erase_iff hnd).mp hcon).1 rfl
  · intro m hm hne
    rw [hids]
    exact (List.Nodup.mem_erase_iff hnd).mpr ⟨hne, List.mem_map.mpr ⟨m, hm, rfl⟩⟩
  · intro c hc hchild
    have hcne : c.id ≠ nodeId := by
      intro hceq
      have : c = node := eq_of_id_eq hnd hc hn (by rw [hceq, hid])
      rw [this] at hchild
      exact hself hchild
    set c₁ := cleanupChildUpdate ns node nodeId c with hc₁
    have hc₁mem : c₁ ∈ ns.map (cleanupChildUpdate ns node nodeId) :=
      List.mem_map.mpr ⟨c, hc, rfl⟩
    have hc₁id : c₁.id = c.id := cleanupChildUpdate_id ns node nodeId c
    have hc₁mem2 : c₁ ∈ removeFirst (ns.map (cleanupChildUpdate ns node nodeId)) nodeId :=
      removeFirst_mem hc₁mem (by rw [hc₁id]; exact hcne)
    have hstructs : (cleanupNode centerX centerY nodeId ns).map Node.struct
        = (removeFirst (ns.map (cleanupChildUpdate ns node nodeId)) nodeId).map Node.struct := by
      rw [hrw]
      exact autoLayout_map_struct centerX centerY _
    have : c₁.struct ∈ (cleanupNode centerX centerY nodeId ns).map Node.struct := by
      rw [hstructs]
      exact List.mem_map.mpr ⟨c₁, hc₁mem2, rfl⟩
    rcases List.mem_map.mp this with ⟨c', hc', hcs⟩
    have hc'id : c'.id = c.id := by
      have := congrArg NodeStruct.id hcs
      simpa [hc₁id] using this
    have hc'par : c'.parentIds = c₁.parentIds := by
      have := congrArg NodeStruct.parentIds hcs
      simpa using this
    have hc₁par : c₁.parentIds
        = appendParents (c.parentIds.filter (fun i => i ≠ nodeId))
            ((ns.filter (fun n => n.id ∈ node.parentIds)).map (·.id)) := by
      rw [hc₁]
      unfold cleanupChildUpdate
      rw [if_pos hchild]
    refine ⟨c', hc', hc'id, ?_, ?_⟩
    · rw [hc'par, hc₁par]
      exact appendParents_nodup _ _ (List.Nodup.filter _ (hpnd c hc))
    · intro q
      rw [hc'par, hc₁par, appendParents_mem]
      constructor
      · rintro (h | h)
        · rcases List.mem_filter.mp h with ⟨h1, h2⟩
          exact Or.inl ⟨h1, by simpa using h2⟩
        · rcases List.mem_map.mp h with ⟨m, hm, hid2⟩
          rcases List.mem_filter.mp hm with ⟨hm2, hm3⟩
          exact Or.inr ⟨m, hm2, hid2, by
            rw [← hid2]
            simpa using hm3⟩
      · rintro (⟨h1, h2⟩ | ⟨m, hm, hid2, hmp⟩)
        · exact Or.inl (List.mem_filter.mpr ⟨h1, by simpa using h2⟩)
        · refine Or.inr (List.mem_map.mpr ⟨m, ?_, hid2⟩)
          exact List.mem_filter.mpr ⟨hm, by rw [hid2]; simpa using hmp⟩

/-- Canvas for the cleanup witness: grandparent `0`, resolved node `1`
under it, child `2` under `1`. -/
def cleanupCanvas : List (Node ℚ) :=
  [⟨0, 0, 0, [], none, "", "", false, []⟩,
   ⟨1, 0, 300, [0], none, "", "", true, []⟩,
   ⟨2, 0, 600, [1], none, "", "", false, []⟩]

theorem cleanupNode_claim2_witness :
    (1 ∉ (cleanupNode (0 : ℚ) 0 1 cleanupCanvas).map (·.id)) ∧
    (∀ m ∈ cleanupCanvas, m.id ≠ 1 →
      m.id ∈ (cleanupNode (0 : ℚ) 0 1 cleanupCanvas).map (·.id)) ∧
    (∀ c ∈ cleanupCanvas, 1 ∈ c.parentIds →
      ∃ c' ∈ cleanupNode (0 : ℚ) 0 1 cleanupCanvas, c'.id = c.id ∧
        c'.parentIds.Nodup ∧
        (∀ q, q ∈ c'.parentIds ↔
          (q ∈ c.parentIds ∧ q ≠ 1) ∨
          ∃ m ∈ cleanupCanvas, m.id = q ∧ q ∈ (⟨1, 0, 300, [0], none, "", "", true, []⟩ :
            Node ℚ).parentIds)) :=
  cleanupNode_claim2 0 0 1 cleanupCanvas ⟨1, 0, 300, [0], none, "", "", true, []⟩
    (by decide) (by decide) rfl (by decide) (by decide)

/-! ### History manager (src/script.js lines 40-121)

`pushHistory` deep-copies the whole state onto a bounded stack (cap 50)
with a current index, discarding "future" entries when not at the tip.
`undo`/`redo` step the index, restore the snapshot, and then call
`saveState(true)`: it skips `pushHistory` (the `isUndoing` flag guards
re-entrancy), but it also re-stamps the current canvas's `lastModified`
with the current time and overwrites its stored `pan`/`scale` with the
live viewport variables, so the restored state is not bit-identical to
the snapshot.  A snapshot-pushing mutation runs `saveState()`, which
stamps the same fields before pushing.  Deep copies of immutable values
are the values themselves.  The part of the state that `saveState` never
touches is abstracted as a type parameter `γ`. -/

/-- The history stack: current state, snapshot list and current index
(`historyIndex` starts at `-1`, hence an integer). -/
structure Hist (σ : Type) where
  state : σ
  history : List σ
  index : ℤ
deriving Repr, DecidableEq

/-- The app state as `saveState` sees it: the current canvas's
`lastModified` timestamp and stored `pan`/`scale`, plus everything
`saveState` never writes (`content`). -/
structure AppState (γ : Type) where
  content : γ
  lastModified : ℕ
  pan : ℤ × ℤ
  scale : ℚ
deriving Repr, DecidableEq

/-- `saveState(true)` of src/script.js (lines 109-121), state part:
re-stamp `lastModified` with the current time and overwrite the stored
`pan`/`scale` with the live viewport; `skipHistory = true` skips the
`pushHistory` call (the `localStorage`/file writes leave the state
untouched). -/
def saveStateSkip {γ : Type} (now : ℕ) (p : ℤ × ℤ) (sc : ℚ)
    (s : AppState γ) : AppState γ :=
  { s with lastModified := now, pan := p, scale := sc }

/-- The size-cap step of `pushHistory`:
`if (history.length > 50) { history.shift(); historyIndex--; }`. -/
def capStep {σ : Type} (h : Hist σ) : Hist σ :=
  if 50 < h.history.length then
    { h with history := h.history.drop 1, index := h.index - 1 }
  else h

/-- `pushHistory()` of src/script.js: discard the future when not at the
tip, push a copy of the current state, advance the index, then cap. -/
def pushHistory {σ : Type} (h : Hist σ) : Hist σ :=
  let sliced := if h.index < (h.history.length : ℤ) - 1
    then h.history.take (h.index + 1).toNat else h.history
  capStep { h with history := sliced ++ [h.state], index := h.index + 1 }

/-- `undo()` of src/script.js: step back, restore that snapshot, then
`saveState(true)` — no history push, but the restored state is re-stamped
with the current time and live viewport. -/
def undo {γ : Type} (now : ℕ) (p : ℤ × ℤ) (sc : ℚ)
    (h : Hist (AppState γ)) : Hist (AppState γ) :=
  if 0 < h.index then
    { h with
      index := h.index - 1
      state := saveStateSkip now p sc (h.history.getD (h.index - 1).toNat h.state) }
  else h

/-- `redo()` of src/script.js, with the same trailing `saveState(true)`. -/
def redo {γ : Type} (now : ℕ) (p : ℤ × ℤ) (sc : ℚ)
    (h : Hist (AppState γ)) : Hist (AppState γ) :=
  if h.index < (h.history.length : ℤ) - 1 then
    { h with
      index := h.index + 1
      state := saveStateSkip now p sc (h.history.getD (h.index + 1).toNat h.state) }
  else h

/-- Change the state, then `pushHistory()`. -/
def mutate {σ : Type} (f : σ → σ) (h : Hist σ) : Hist σ :=
  pushHistory { h with state := f h.state }

/-- A snapshot-pushing mutation: change the state, then `saveState()`,
which stamps `lastModified`/`pan`/`scale` and pushes the stamped state. -/
def mutateApp {γ : Type} (f : AppState γ → AppState γ) (now : ℕ)
    (p : ℤ × ℤ) (sc : ℚ) (h : Hist (AppState γ)) : Hist (AppState γ) :=
  mutate (fun s => saveStateSkip now p sc (f s)) h

/-- Initial load: `loadState(); pushHistory();` with the empty stack and
`historyIndex = -1`. -/
def initHist {σ : Type} (s₀ : σ) : Hist σ :=
  pushHistory { state := s₀, history := [], index := -1 }

def applyMutations {γ : Type}
    (ms : List ((AppState γ → AppState γ) × ℕ × (ℤ × ℤ) × ℚ))
    (h : Hist (AppState γ)) : Hist (AppState γ) :=
  ms.foldl (fun acc m => mutateApp m.1 m.2.1 m.2.2.1 m.2.2.2 acc) h

/-- The history invariant: valid index, the current state equals the
snapshot at the index, and the stack respects the cap.  It holds after
every snapshot-pushing mutation (the stamped state is exactly what was
pushed); `undo`/`redo` break the state-equals-snapshot part, because the
restored state is re-stamped. -/
def HistInv {σ : Type} (h : Hist σ) : Prop :=
  0 ≤ h.index ∧ h.index < (h.history.length : ℤ) ∧
  h.history[h.index.toNat]? = some h.state ∧ h.history.length ≤ 50

theorem pushHistory_inv {σ : Type} (h : Hist σ) (h1 : -1 ≤ h.index)
    (h2 : h.index < (h.history.length : ℤ)) (h3 : h.history.length ≤ 50) :
    HistInv (pushHistory h) := by
  obtain ⟨st, hist, idx⟩ := h
  simp only at h1 h2 h3
  have hrw : pushHistory ⟨st, hist, idx⟩
      = capStep ⟨st, (if idx < (hist.length : ℤ) - 1
          then hist.take (idx + 1).toNat else hist) ++ [st], idx + 1⟩ := rfl
  rw [hrw]
  set sliced := if idx < (hist.length : ℤ) - 1
    then hist.take (idx + 1).toNat else hist with hsl
  have hslen : sliced.length = (idx + 1).toNat := by
    rw [hsl]
    by_cases hc : idx < (hist.length : ℤ) - 1
    · rw [if_pos hc, List.length_take]
      omega
    · rw [if_neg hc]
      omega
  have hget : (sliced ++ [st])[sliced.length]? = some st := by
    rw [List.getElem?_append_right (le_refl _)]
    simp
  unfold capStep HistInv
  by_cases hcap : 50 < (sliced ++ [st]).length
  · rw [if_pos (by simpa using hcap)]
    simp only [List.length_append, List.length_singleton] at hcap
    simp only [List.length_drop, List.length_append, List.length_singleton]
    refine ⟨by omega, by omega, ?_, by omega⟩
    rw [List.getElem?_drop]
    have harith : 1 + (idx + 1 - 1).toNat = sliced.length := by omega
    rw [harith]
    exact hget
  · rw [if_neg (by simpa using hcap)]
    simp only [List.length_append, List.length_singleton] at hcap
    simp only [List.length_append, List.length_singleton]
    refine ⟨by omega, by omega, ?_, by omega⟩
    have harith : (idx + 1).toNat = sliced.length := by omega
    rw [harith]
    exact hget

theorem initHist_inv {σ : Type} (s₀ : σ) : HistInv (initHist s₀) := by
  apply pushHistory_inv <;> simp

theorem mutate_inv {σ : Type} (f : σ → σ) (h : Hist σ) (hinv : HistInv h) :
    HistInv (mutate f h) := by
  rcases hinv with ⟨i1, i2, _, i4⟩
  exact pushHistory_inv _ (show (-1 : ℤ) ≤ h.index by omega) i2 i4

theorem mutateApp_inv {γ : Type} (f : AppState γ → AppState γ) (now : ℕ)
    (p : ℤ × ℤ) (sc : ℚ) (h : Hist (AppState γ)) (hinv : HistInv h) :
    HistInv (mutateApp f now p sc h) :=
  mutate_inv _ h hinv

theorem applyMutations_inv {γ : Type}
    (ms : List ((AppState γ → AppState γ) × ℕ × (ℤ × ℤ) × ℚ))
    (h : Hist (AppState γ)) (hinv : HistInv h) :
    HistInv (applyMutations ms h) := by
  induction ms generalizing h with
  | nil => exact hinv
  | cons m ms ih =>
    exact ih _ (mutateApp_inv m.1 m.2.1 m.2.2.1 m.2.2.2 h hinv)

/-- `history.length > 50 → history.shift()`: the cap step of `pushHistory`. -/
def capDrop {σ : Type} (l : List σ) : List σ :=
  if 50 < l.length then l.drop 1 else l

/-- C3 (amended).  On any history state satisfying the invariant
(established by any sequence of snapshot-pushing mutations from the
initial load — see `applyMutations_inv`): undo-then-redo and
redo-then-undo, when available, restore the snapshot stack and the index
bit-identically, and restore the state **up to the `saveState(true)`
re-stamp**: the round trip equals the original record except that the
current canvas's `lastModified`, `pan` and `scale` are overwritten with
the time and viewport of the second call — so the state is NOT
bit-identical in general (see the counterexample); a new mutation
discards all snapshots past the current index before pushing the freshly
stamped state and keeps the stack capped at 50; and undo/redo never push
(restoring is not a new history event). -/
theorem history_claim3 {γ : Type} (h : Hist (AppState γ)) (hinv : HistInv h) :
    (h.history.length ≤ 50) ∧
    (∀ (now₁ now₂ : ℕ) (p₁ p₂ : ℤ × ℤ) (sc₁ sc₂ : ℚ), 0 < h.index →
      redo now₂ p₂ sc₂ (undo now₁ p₁ sc₁ h)
        = { h with state := saveStateSkip now₂ p₂ sc₂ h.state }) ∧
    (∀ (now₁ now₂ : ℕ) (p₁ p₂ : ℤ × ℤ) (sc₁ sc₂ : ℚ),
      h.index < (h.history.length : ℤ) - 1 →
      undo now₂ p₂ sc₂ (redo now₁ p₁ sc₁ h)
        = { h with state := saveStateSkip now₂ p₂ sc₂ h.state }) ∧
    (∀ (f : AppState γ → AppState γ) (now : ℕ) (p : ℤ × ℤ) (sc : ℚ),
      (mutateApp f now p sc h).history
        = capDrop (h.history.take (h.index + 1).toNat
            ++ [saveStateSkip now p sc (f h.state)]) ∧
      (mutateApp f now p sc h).history.length ≤ 50) ∧
    (∀ (now : ℕ) (p : ℤ × ℤ) (sc : ℚ),
      (undo now p sc h).history = h.history ∧
      (redo now p sc h).history = h.history) := by
  have hinv' := hinv
  obtain ⟨st, hist, idx⟩ := h
  rcases hinv with ⟨i1, i2, i3, i4⟩
  simp only at i1 i2 i3 i4
  refine ⟨i4, ?_, ?_, ?_, ?_⟩
  · intro now₁ now₂ p₁ p₂ sc₁ sc₂ hpos
    have e1 : undo now₁ p₁ sc₁ ⟨st, hist, idx⟩
        = ⟨saveStateSkip now₁ p₁ sc₁ (hist.getD (idx - 1).toNat st), hist, idx - 1⟩ := by
      simp only [undo, if_pos hpos]
    rw [e1]
    have hc2 : idx - 1 < (hist.length : ℤ) - 1 := by omega
    simp only [redo]
    rw [if_pos hc2]
    have h3 : idx - 1 + 1 = idx := by ring
    simp only [h3]
    have h4 : hist.getD idx.toNat
        (saveStateSkip now₁ p₁ sc₁ (hist.getD (idx - 1).toNat st)) = st := by
      rw [List.getD_eq_getElem?_getD, i3]
      rfl
    rw [h4]
  · intro now₁ now₂ p₁ p₂ sc₁ sc₂ hlt
    have e1 : redo now₁ p₁ sc₁ ⟨st, hist, idx⟩
        = ⟨saveStateSkip now₁ p₁ sc₁ (hist.getD (idx + 1).toNat st), hist, idx + 1⟩ := by
      simp only [redo, if_pos hlt]
    rw [e1]
    have hc2 : (0 : ℤ) < idx + 1 := by omega
    simp only [undo]
    rw [if_pos hc2]
    have h3 : idx + 1 - 1 = idx := by ring
    simp only [h3]
    have h4 : hist.getD idx.toNat
        (saveStateSkip now₁ p₁ sc₁ (hist.getD (idx + 1).toNat st)) = st := by
      rw [List.getD_eq_getElem?_getD, i3]
      rfl
    rw [h4]
  · intro f now p sc
    constructor
    · simp only [mutateApp, mutate, pushHistory, capDrop, capStep]
      by_cases hc : idx < (hist.length : ℤ) - 1
      · rw [if_pos hc]
        by_cases h50 : 50 < (List.take (idx + 1).toNat hist
            ++ [saveStateSkip now p sc (f st)]).length
        · rw [if_pos h50, if_pos h50]
        · rw [if_neg h50, if_neg h50]
      · rw [if_neg hc]
        have hlen : hist.length ≤ (idx + 1).toNat := by omega
        rw [List.take_of_length_le hlen]
        by_cases h50 : 50 < (hist ++ [saveStateSkip now p sc (f st)]).length
        · rw [if_pos h50, if_pos h50]
        · rw [if_neg h50, if_neg h50]
    · exact (mutateApp_inv f now p sc ⟨st, hist, idx⟩ hinv').2.2.2
  · intro now p sc
    constructor
    · simp only [undo]
      by_cases hc : (0 : ℤ) < idx
      · rw [if_pos hc]
      · rw [if_neg hc]
    · simp only [redo]
      by_cases hc : idx < (hist.length : ℤ) - 1
      · rw [if_pos hc]
      · rw [if_neg hc]

/-- One content mutation stamped at time 1: history
`[s₀, stamp₁ (f s₀)]`, index 1. -/
def histC : Hist (AppState ℕ) :=
  mutateApp (fun s => { s with content := s.content + 1 }) 1 (0, 0) 1
    (initHist ⟨0, 0, (0, 0), 1⟩)

/-- C3 counterexample.  The claim promises that undo-then-redo restores
state bit-identical to the state before the pair.  But both calls run
`saveState(true)`, which re-stamps the current canvas's `lastModified`
with the current time: after a mutation stamped at time 1, undo at time 2
followed by redo at time 3 returns the same stack, index and content, yet
`lastModified` is 3, not 1 — the state is not bit-identical. -/
theorem history_claim3_counterexample :
    (redo 3 (0, 0) 1 (undo 2 (0, 0) 1 histC)).history = histC.history ∧
    (redo 3 (0, 0) 1 (undo 2 (0, 0) 1 histC)).index = histC.index ∧
    (redo 3 (0, 0) 1 (undo 2 (0, 0) 1 histC)).state.content
      = histC.state.content ∧
    (redo 3 (0, 0) 1 (undo 2 (0, 0) 1 histC)).state.lastModified = 3 ∧
    histC.state.lastModified = 1 ∧
    redo 3 (0, 0) 1 (undo 2 (0, 0) 1 histC) ≠ histC := by
  refine ⟨rfl, rfl, rfl, rfl, rfl, ?_⟩
  decide

/-- A concrete history run: two stamped mutations, then one undo whose
re-stamp happens to coincide with the restored snapshot's fields, leaving
both an undo and a redo step available with the invariant intact. -/
def histW : Hist (AppState ℕ) :=
  undo 1 (0, 0) 1
    (mutateApp (fun s => { s with content := s.content + 1 }) 2 (0, 0) 1 histC)

theorem history_claim3_witness :
    (histW.history.length ≤ 50) ∧
    redo 5 (3, 4) 2 (undo 4 (0, 0) 1 histW)
      = { histW with state := saveStateSkip 5 (3, 4) 2 histW.state } ∧
    undo 5 (3, 4) 2 (redo 4 (0, 0) 1 histW)
      = { histW with state := saveStateSkip 5 (3, 4) 2 histW.state } ∧
    ((mutateApp (fun s => { s with content := s.content + 5 }) 9 (1, 1) 1
        histW).history
      = capDrop (histW.history.take (histW.index + 1).toNat
          ++ [saveStateSkip 9 (1, 1) 1
                { histW.state with content := histW.state.content + 5 }]) ∧
      (mutateApp (fun s => { s with content := s.content + 5 }) 9 (1, 1) 1
        histW).history.length ≤ 50) ∧
    ((undo 4 (0, 0) 1 histW).history = histW.history ∧
     (redo 4 (0, 0) 1 histW).history = histW.history) := by
  have hinv : HistInv histW := by unfold HistInv; decide
  have hmain := history_claim3 histW hinv
  exact ⟨hmain.1, hmain.2.1 4 5 (0, 0) (3, 4) 1 2 (by decide),
    hmain.2.2.1 4 5 (0, 0) (3, 4) 1 2 (by decide),
    hmain.2.2.2.1 (fun s => { s with content := s.content + 5 }) 9 (1, 1) 1,
    hmain.2.2.2.2 4 (0, 0) 1⟩


/-! ### updateBranchColor (src/script.js lines 1612-1635)

`updateBranchColor(rootId, newColor)` colors the root, then
`updateChildren` recursively colors every node listing the current id among
its parents — with **no visited set**: on a cyclic graph the mutual
recursion never returns.  The iteration over `nodes` is positional
(`forEach`), so the embedding walks index lists. -/

/-- `n.color = newColor` on the array slot `k`. -/
def setColorAt (ns : List (Node α)) (k : ℕ) (c : String) : List (Node α) :=
  match ns[k]? with
  | some n => ns.set k { n with color := some c }
  | none => ns

mutual

/-- One `updateChildren(parentId)` call of src/script.js, fuel-guarded:
`none` means the fuel was exhausted (on a cycle, every fuel is). -/
def updateChildrenAux (c : String) :
    ℕ → ℕ → List (Node α) → Option (List (Node α))
  | 0, _, _ => none
  | fuel+1, parentId, ns => updateChildrenGo c fuel parentId (List.range ns.length) ns
termination_by fuel _ _ => (fuel, 0)

/-- The `nodes.forEach(n => { if (n.parentIds.includes(parentId)) { n.color
= newColor; updateChildren(n.id); } })` loop over array positions. -/
def updateChildrenGo (c : String) :
    ℕ → ℕ → List ℕ → List (Node α) → Option (List (Node α))
  | _, _, [], ns => some ns
  | fuel, parentId, k :: ks, ns =>
    match ns[k]? with
    | none => updateChildrenGo c fuel parentId ks ns
    | some n =>
      if parentId ∈ n.parentIds then
        match updateChildrenAux c fuel n.id (setColorAt ns k c) with
        | none => none
        | some ns₂ => updateChildrenGo c fuel parentId ks ns₂
      else updateChildrenGo c fuel parentId ks ns
termination_by fuel _ ks _ => (fuel, ks.length + 1)

end

/-- `updateBranchColor(rootId, newColor)`, fuel-guarded. -/
def updateBranchColorFuel (fuel : ℕ) (rootId : ℕ) (c : String)
    (ns : List (Node α)) : Option (List (Node α)) :=
  updateChildrenAux c fuel rootId
    (updateFirst ns rootId (fun n => { n with color := some c }))

/-- Pointwise evolution under color propagation: each slot is unchanged or
has its color set to the new color. -/
def ColorEvol (c : String) (ns ns' : List (Node α)) : Prop :=
  ns'.length = ns.length ∧
  ∀ (k : ℕ) (n : Node α), ns[k]? = some n →
    ns'[k]? = some n ∨ ns'[k]? = some { n with color := some c }

theorem ColorEvol.refl (c : String) (ns : List (Node α)) : ColorEvol c ns ns :=
  ⟨rfl, fun _ _ h => Or.inl h⟩

theorem ColorEvol.compose {c : String} {ns₁ ns₂ ns₃ : List (Node α)}
    (h12 : ColorEvol c ns₁ ns₂) (h23 : ColorEvol c ns₂ ns₃) : ColorEvol c ns₁ ns₃ := by
  refine ⟨h23.1.trans h12.1, ?_⟩
  intro k n h1
  rcases h12.2 k n h1 with h2 | h2
  · exact h23.2 k n h2
  · rcases h23.2 k _ h2 with h3 | h3
    · exact Or.inr h3
    · exact Or.inr h3

theorem setColorAt_evol (c : String) (ns : List (Node α)) (k : ℕ) :
    ColorEvol c ns (setColorAt ns k c) := by
  unfold setColorAt
  cases hk : ns[k]? with
  | none => exact ColorEvol.refl c ns
  | some n =>
    refine ⟨List.length_set .., ?_⟩
    intro j m hj
    by_cases hjk : j = k
    · subst hjk
      rw [hj] at hk
      cases hk
      right
      rw [List.getElem?_set_self']
      rw [hj]
      rfl
    · left
      rw [List.getElem?_set_ne (fun h => hjk h.symm)]
      exact hj

theorem updateChildrenGo_evol (c : String) (fuel : ℕ)
    (ih : ∀ pid (ns : List (Node α)) out, updateChildrenAux c fuel pid ns = some out →
      ColorEvol c ns out) :
    ∀ ks pid (ns : List (Node α)) out, updateChildrenGo c fuel pid ks ns = some out →
      ColorEvol c ns out := by
  intro ks
  induction ks with
  | nil =>
    intro pid ns out h
    simp only [updateChildrenGo] at h
    cases h
    exact ColorEvol.refl c ns
  | cons k ks ihks =>
    intro pid ns out h
    simp only [updateChildrenGo] at h
    cases hk : ns[k]? with
    | none =>
      rw [hk] at h
      exact ihks pid ns out h
    | some n =>
      rw [hk] at h
      dsimp only at h
      by_cases hp : pid ∈ n.parentIds
      · rw [if_pos hp] at h
        cases haux : updateChildrenAux c fuel n.id (setColorAt ns k c) with
        | none => rw [haux] at h; cases h
        | some ns₂ =>
          rw [haux] at h
          exact ((setColorAt_evol c ns k).compose (ih _ _ _ haux)).compose
            (ihks pid ns₂ out h)
      · rw [if_neg hp] at h
        exact ihks pid ns out h

theorem updateChildrenAux_evol (c : String) :
    ∀ fuel pid (ns : List (Node α)) out, updateChildrenAux c fuel pid ns = some out →
      ColorEvol c ns out := by
  intro fuel
  induction fuel with
  | zero => intro pid ns out h; simp [updateChildrenAux] at h
  | succ f ihf =>
    intro pid ns out h
    simp only [updateChildrenAux] at h
    exact updateChildrenGo_evol c f ihf _ pid ns out h

theorem ColorEvol.shape {c : String} {ns ns' : List (Node α)}
    (h : ColorEvol c ns ns') : ns'.map Node.shape = ns.map Node.shape := by
  apply List.ext_getElem?
  intro k
  rw [List.getElem?_map, List.getElem?_map]
  cases hk : ns[k]? with
  | none =>
    have hlen : ns.length ≤ k := List.getElem?_eq_none_iff.mp hk
    have h2 : ns'[k]? = none := List.getElem?_eq_none_iff.mpr (by rw [h.1]; exact hlen)
    rw [h2]
  | some n =>
    rcases h.2 k n hk with h2 | h2
    · rw [h2]
    · rw [h2]
      rfl

/-- The slot `k` holds a node colored `c`. -/
def slotColored (c : String) (ns : List (Node α)) (k : ℕ) : Prop :=
  ∀ n : Node α, ns[k]? = some n → n.color = some c

/-- Every slot holding a node with id `x` is colored `c`. -/
def idColored (c : String) (ns : List (Node α)) (x : ℕ) : Prop :=
  ∀ (k : ℕ) (n : Node α), ns[k]? = some n → n.id = x → n.color = some c

theorem ColorEvol.slotColored_mono {c : String} {ns ns' : List (Node α)}
    (h : ColorEvol c ns ns') {k : ℕ} (hs : slotColored c ns k) :
    slotColored c ns' k := by
  unfold slotColored at hs ⊢
  intro n' hn'
  rcases List.getElem?_eq_some.mp hn' with ⟨hlt, _⟩
  have hk : k < ns.length := by rw [← h.1]; exact hlt
  have hn : ns[k]? = some (ns[k]) := List.getElem?_eq_getElem hk
  rcases h.2 k _ hn with h2 | h2
  · rw [h2] at hn'
    cases hn'
    exact hs _ hn
  · rw [h2] at hn'
    cases hn'
    rfl

theorem ColorEvol.idColored_mono {c : String} {ns ns' : List (Node α)}
    (h : ColorEvol c ns ns') {x : ℕ} (hs : idColored c ns x) :
    idColored c ns' x := by
  unfold idColored at hs ⊢
  intro k n' hn' hid
  rcases List.getElem?_eq_some.mp hn' with ⟨hlt, _⟩
  have hk : k < ns.length := by rw [← h.1]; exact hlt
  have hn : ns[k]? = some (ns[k]) := List.getElem?_eq_getElem hk
  rcases h.2 k _ hn with h2 | h2
  · rw [h2] at hn'
    cases hn'
    exact hs k _ hn hid
  · rw [h2] at hn'
    cases hn'
    rfl

/-- Parent-to-child edge over the positional shape view `(id, parentIds)`
of the canvas. -/
def edgeOfShape (L : List (ℕ × List ℕ)) (p x : ℕ) : Prop :=
  ∃ e ∈ L, e.1 = x ∧ p ∈ e.2

theorem map_struct_shape {ns ns' : List (Node α)}
    (h : ns'.map Node.struct = ns.map Node.struct) :
    ns'.map Node.shape = ns.map Node.shape := by
  have h2 := congrArg (List.map (fun s : NodeStruct => (s.id, s.parentIds))) h
  simpa [List.map_map, Function.comp, Node.shape, Node.struct] using h2

theorem shape_fst {ns : List (Node α)} :
    (ns.map Node.shape).map Prod.fst = ns.map (·.id) := by
  simp [List.map_map, Function.comp, Node.shape]

theorem nodup_getElem?_inj {β : Type} {l : List β} (hnd : l.Nodup) (a : β) {i j : ℕ}
    (hi : l[i]? = some a) (hj : l[j]? = some a) : i = j := by
  rcases List.getElem?_eq_some.mp hi with ⟨hi1, hi2⟩
  rcases List.getElem?_eq_some.mp hj with ⟨hj1, hj2⟩
  exact (List.Nodup.getElem_inj_iff hnd).mp (hi2.trans hj2.symm)

theorem updateChildrenGo_total (c : String) (L : List (ℕ × List ℕ)) (rank : ℕ → ℕ)
    (fuel : ℕ)
    (ih : ∀ pid (ns : List (Node α)), ns.map Node.shape = L → rank pid < fuel →
      (updateChildrenAux c fuel pid ns).isSome) :
    ∀ ks pid (ns : List (Node α)), ns.map Node.shape = L →
      (∀ x, edgeOfShape L pid x → rank x < fuel) →
      (updateChildrenGo c fuel pid ks ns).isSome := by
  intro ks
  induction ks with
  | nil => intro pid ns _ _; simp [updateChildrenGo]
  | cons k ks ihks =>
    intro pid ns hL hedge
    simp only [updateChildrenGo]
    cases hk : ns[k]? with
    | none => exact ihks pid ns hL hedge
    | some n =>
      dsimp only
      by_cases hp : pid ∈ n.parentIds
      · rw [if_pos hp]
        have hshape : (setColorAt ns k c).map Node.shape = L :=
          (setColorAt_evol c ns k).shape.trans hL
        have hnm : n ∈ ns := by
          rcases List.getElem?_eq_some.mp hk with ⟨hk1, hk2⟩
          rw [← hk2]
          exact List.getElem_mem hk1
        have hedgekn : edgeOfShape L pid n.id := by
          refine ⟨(n.id, n.parentIds), ?_, rfl, hp⟩
          rw [← hL]
          exact List.mem_map.mpr ⟨n, hnm, rfl⟩
        have hry : rank n.id < fuel := hedge n.id hedgekn
        cases haux : updateChildrenAux c fuel n.id (setColorAt ns k c) with
        | none =>
          exact absurd (haux ▸ ih n.id _ hshape hry) (by simp)
        | some ns₂ =>
          have hL₂ : ns₂.map Node.shape = L :=
            (updateChildrenAux_evol c fuel _ _ _ haux).shape.trans hshape
          exact ihks pid ns₂ hL₂ hedge
      · rw [if_neg hp]
        exact ihks pid ns hL hedge

theorem updateChildrenAux_total (c : String) (L : List (ℕ × List ℕ)) (rank : ℕ → ℕ)
    (hrank : ∀ p x, edgeOfShape L p x → rank x < rank p) :
    ∀ fuel pid (ns : List (Node α)), ns.map Node.shape = L → rank pid < fuel →
      (updateChildrenAux c fuel pid ns).isSome := by
  intro fuel
  induction fuel with
  | zero => intro pid ns _ h; omega
  | succ f ihf =>
    intro pid ns hL hr
    simp only [updateChildrenAux]
    apply updateChildrenGo_total c L rank f ihf _ pid ns hL
    intro x he
    have := hrank pid x he
    omega

theorem setColorAt_slotColored (c : String) (ns : List (Node α)) {k : ℕ} {n : Node α}
    (hk : ns[k]? = some n) : slotColored c (setColorAt ns k c) k := by
  intro n' hn'
  unfold setColorAt at hn'
  rw [hk] at hn'
  rcases List.getElem?_eq_some.mp hk with ⟨hk1, _⟩
  rw [List.getElem?_set_self' ] at hn'
  rw [List.getElem?_eq_getElem hk1] at hn'
  simp only [Option.map_some] at hn'
  cases hn'
  rfl

theorem updateChildrenGo_children_colored (c : String) (fuel : ℕ) :
    ∀ ks pid (ns : List (Node α)) out, updateChildrenGo c fuel pid ks ns = some out →
      ∀ k ∈ ks, ∀ n : Node α, ns[k]? = some n → pid ∈ n.parentIds →
        slotColored c out k := by
  intro ks
  induction ks with
  | nil => intro pid ns out _ k hk; cases hk
  | cons k₀ ks ihks =>
    intro pid ns out h k hkmem n hk hp
    simp only [updateChildrenGo] at h
    cases hk₀ : ns[k₀]? with
    | none =>
      rw [hk₀] at h
      rcases List.mem_cons.mp hkmem with rfl | hkmem2
      · rw [hk] at hk₀; cases hk₀
      · exact ihks pid ns out h k hkmem2 n hk hp
    | some n₀ =>
      rw [hk₀] at h
      dsimp only at h
      by_cases hp₀ : pid ∈ n₀.parentIds
      · rw [if_pos hp₀] at h
        cases haux : updateChildrenAux c fuel n₀.id (setColorAt ns k₀ c) with
        | none => rw [haux] at h; cases h
        | some ns₂ =>
          rw [haux] at h
          have hevol₂ : ColorEvol c (setColorAt ns k₀ c) ns₂ :=
            updateChildrenAux_evol c fuel _ _ _ haux
          have hevol₃ : ColorEvol c ns₂ out :=
            updateChildrenGo_evol c fuel (updateChildrenAux_evol c fuel) ks pid ns₂ out h
          rcases List.mem_cons.mp hkmem with rfl | hkmem2
          · -- the head slot was colored and stays colored
            rw [hk] at hk₀; cases hk₀
            exact hevol₃.slotColored_mono
              (hevol₂.slotColored_mono (setColorAt_slotColored c ns hk))
          · -- a later slot: transport its node across the evolution
            have hevol₁ : ColorEvol c ns (setColorAt ns k₀ c) := setColorAt_evol c ns k₀
            rcases (hevol₁.compose hevol₂).2 k n hk with h2 | h2
            · exact ihks pid ns₂ out h k hkmem2 n h2 hp
            · exact ihks pid ns₂ out h k hkmem2 _ h2 hp
      · rw [if_neg hp₀] at h
        rcases List.mem_cons.mp hkmem with rfl | hkmem2
        · rw [hk] at hk₀; cases hk₀; exact absurd hp hp₀
        · exact ihks pid ns out h k hkmem2 n hk hp

theorem updateChildrenGo_reach (c : String) (fuel : ℕ) (L : List (ℕ × List ℕ))
    (ihfuel : ∀ pid (ns : List (Node α)) out, ns.map Node.shape = L →
      updateChildrenAux c fuel pid ns = some out →
      ∀ x, Relation.TransGen (edgeOfShape L) pid x → idColored c out x) :
    ∀ ks pid (ns : List (Node α)) out, ns.map Node.shape = L →
      updateChildrenGo c fuel pid ks ns = some out →
      ∀ k ∈ ks, ∀ n : Node α, ns[k]? = some n → pid ∈ n.parentIds →
        ∀ x, Relation.TransGen (edgeOfShape L) n.id x → idColored c out x := by
  intro ks
  induction ks with
  | nil => intro pid ns out _ _ k hk; cases hk
  | cons k₀ ks ihks =>
    intro pid ns out hL h k hkmem n hk hp x htrans
    simp only [updateChildrenGo] at h
    cases hk₀ : ns[k₀]? with
    | none =>
      rw [hk₀] at h
      rcases List.mem_cons.mp hkmem with rfl | hkmem2
      · rw [hk] at hk₀; cases hk₀
      · exact ihks pid ns out hL h k hkmem2 n hk hp x htrans
    | some n₀ =>
      rw [hk₀] at h
      dsimp only at h
      by_cases hp₀ : pid ∈ n₀.parentIds
      · rw [if_pos hp₀] at h
        cases haux : updateChildrenAux c fuel n₀.id (setColorAt ns k₀ c) with
        | none => rw [haux] at h; cases h
        | some ns₂ =>
          rw [haux] at h
          have hshape₁ : (setColorAt ns k₀ c).map Node.shape = L :=
            (setColorAt_evol c ns k₀).shape.trans hL
          have hevol₂ : ColorEvol c (setColorAt ns k₀ c) ns₂ :=
            updateChildrenAux_evol c fuel _ _ _ haux
          have hevol₃ : ColorEvol c ns₂ out :=
            updateChildrenGo_evol c fuel (updateChildrenAux_evol c fuel) ks pid ns₂ out h
          rcases List.mem_cons.mp hkmem with rfl | hkmem2
          · rw [hk] at hk₀; cases hk₀
            have : idColored c ns₂ x := ihfuel n.id _ ns₂ hshape₁ haux x htrans
            exact hevol₃.idColored_mono this
          · have hevol₁ : ColorEvol c ns (setColorAt ns k₀ c) := setColorAt_evol c ns k₀
            have hL₂ : ns₂.map Node.shape = L := hevol₂.shape.trans hshape₁
            rcases (hevol₁.compose hevol₂).2 k n hk with h2 | h2
            · exact ihks pid ns₂ out hL₂ h k hkmem2 n h2 hp x htrans
            · exact ihks pid ns₂ out hL₂ h k hkmem2 _ h2 hp x htrans
      · rw [if_neg hp₀] at h
        rcases List.mem_cons.mp hkmem with rfl | hkmem2
        · rw [hk] at hk₀; cases hk₀; exact absurd hp hp₀
        · exact ihks pid ns out hL h k hkmem2 n hk hp x htrans

/-- After `updateChildren(pid)` returns, every strict descendant of `pid`
(along parent-containment edges of the canvas's fixed shape) carries the
new color. -/
theorem updateChildrenAux_reach (c : String) (L : List (ℕ × List ℕ))
    (hnd : (L.map Prod.fst).Nodup) :
    ∀ fuel pid (ns : List (Node α)) out, ns.map Node.shape = L →
      updateChildrenAux c fuel pid ns = some out →
      ∀ x, Relation.TransGen (edgeOfShape L) pid x → idColored c out x := by
  intro fuel
  induction fuel with
  | zero => intro pid ns out _ h; simp [updateChildrenAux] at h
  | succ f ihf =>
    intro pid ns out hL h x htrans
    simp only [updateChildrenAux] at h
    rcases Relation.TransGen.head'_iff.mp htrans with ⟨y, hedge, hrest⟩
    -- the direct child y sits in some slot j
    rcases hedge with ⟨e, heL, he1, he2⟩
    have heL' : e ∈ ns.map Node.shape := by rw [hL]; exact heL
    rcases List.mem_map.mp heL' with ⟨ny, hnymem, hnyshape⟩
    rcases List.mem_iff_getElem.mp hnymem with ⟨j, hj, hjget⟩
    have hjget? : ns[j]? = some ny := by
      rw [List.getElem?_eq_getElem hj, hjget]
    have hnyid : ny.id = y := by
      have := congrArg Prod.fst hnyshape
      simp [Node.shape] at this
      rw [this, he1]
    have hnyp : pid ∈ ny.parentIds := by
      have := congrArg Prod.snd hnyshape
      simp [Node.shape] at this
      rw [this]
      exact he2
    have hjrange : j ∈ List.range ns.length := List.mem_range.mpr hj
    rcases Relation.reflTransGen_iff_eq_or_transGen.mp hrest with rfl | htrans2
    · -- x is the direct child y: its unique slot is colored by the loop
      have hslot : slotColored c out j :=
        updateChildrenGo_children_colored c f _ pid ns out h j hjrange ny hjget? hnyp
      intro k n' hn' hid
      have hout_shape : out.map Node.shape = L :=
        (updateChildrenGo_evol c f (updateChildrenAux_evol c f) _ pid ns out h).shape.trans hL
      have hids_out : out.map (·.id) = L.map Prod.fst := by
        rw [← shape_fst, hout_shape]
      have hnd_out : (out.map (·.id)).Nodup := by rw [hids_out]; exact hnd
      have hids_ns : out.map (·.id) = ns.map (·.id) := by
        have h2 : (ns.map Node.shape).map Prod.fst = ns.map (·.id) := shape_fst
        rw [hids_out, ← h2, hL]
      have hkj : k = j := by
        apply nodup_getElem?_inj hnd_out x
        · rw [List.getElem?_map, hn']
          simp [hid]
        · rw [hids_ns, List.getElem?_map, hjget?]
          simp [hnyid]
      subst hkj
      exact hslot n' hn'
    · -- x is a deeper descendant: handled inside the recursive call on y
      have := updateChildrenGo_reach c f L ihf _ pid ns out hL h j hjrange ny hjget? hnyp
      rw [hnyid] at this
      exact this x htrans2

/-- `updateFirst` with a shape-preserving update preserves the shape list. -/
theorem updateFirst_map_shape (ns : List (Node α)) (i : ℕ) (f : Node α → Node α)
    (hf : ∀ n, (f n).shape = n.shape) :
    (updateFirst ns i f).map Node.shape = ns.map Node.shape := by
  induction ns with
  | nil => rfl
  | cons n rest ih =>
    rw [updateFirst_cons]
    by_cases h : n.id = i
    · simp [h, hf]
    · simp [h, ih]

theorem updateFirst_idColored (c : String) {ns : List (Node α)}
    (hnd : (ns.map (·.id)).Nodup) (rootId : ℕ) :
    idColored c (updateFirst ns rootId (fun n => { n with color := some c })) rootId := by
  rw [updateFirst_eq_map hnd]
  intro k n' hn' hid
  rw [List.getElem?_map] at hn'
  cases hk : ns[k]? with
  | none => rw [hk] at hn'; cases hn'
  | some n =>
    rw [hk] at hn'
    dsimp only [Option.map] at hn'
    by_cases hni : n.id = rootId
    · rw [if_pos hni] at hn'
      cases hn'
      rfl
    · rw [if_neg hni] at hn'
      cases hn'
      exact absurd hid hni

/-- C7 (amended, positive part).  On a canvas with unique ids whose
parent-containment edges admit a strictly decreasing rank — i.e. on an
acyclic graph — `updateBranchColor(rootId, color)` terminates (explicit
fuel `rank rootId + 1` suffices), changes nothing but colors, and sets the
given color on `rootId` and on every descendant reachable via `parentIds`
containment. -/
theorem updateBranchColor_claim7 (c : String) (rootId : ℕ) (ns : List (Node α))
    (hnd : (ns.map (·.id)).Nodup) (rank : ℕ → ℕ)
    (hrank : ∀ p x, edgeOfShape (ns.map Node.shape) p x → rank x < rank p) :
    ∃ out, updateBranchColorFuel (rank rootId + 1) rootId c ns = some out ∧
      out.map Node.shape = ns.map Node.shape ∧
      idColored c out rootId ∧
      (∀ x, Relation.TransGen (edgeOfShape (ns.map Node.shape)) rootId x →
        idColored c out x) := by
  set L := ns.map Node.shape with hLdef
  set ns₁ := updateFirst ns rootId (fun n => { n with color := some c }) with hns₁
  have hshape₁ : ns₁.map Node.shape = L := by
    rw [hns₁, hLdef]
    exact updateFirst_map_shape ns rootId _ (fun n => rfl)
  have htot : (updateChildrenAux c (rank rootId + 1) rootId ns₁).isSome :=
    updateChildrenAux_total c L rank hrank (rank rootId + 1) rootId ns₁ hshape₁
      (Nat.lt_succ_self _)
  cases hrun : updateChildrenAux c (rank rootId + 1) rootId ns₁ with
  | none => rw [hrun] at htot; cases htot
  | some out =>
    have hevol : ColorEvol c ns₁ out := updateChildrenAux_evol c _ _ _ _ hrun
    refine ⟨out, hrun, hevol.shape.trans hshape₁, ?_, ?_⟩
    · exact hevol.idColored_mono (updateFirst_idColored c hnd rootId)
    · intro x htrans
      have hndL : (L.map Prod.fst).Nodup := by
        rw [hLdef, shape_fst]
        exact hnd
      exact updateChildrenAux_reach c L hndL (rank rootId + 1) rootId ns₁ out
        hshape₁ hrun x htrans

/-- A two-node cycle: node `0` has parent `1`, node `1` has parent `0`.
`completeLink` prevents neither edge (neither is a self-link nor a
duplicate), so the public operations can produce this graph. -/
def cycleCanvas : List (Node ℚ) :=
  [⟨0, 0, 0, [1], none, "", "", false, []⟩,
   ⟨1, 0, 300, [0], none, "", "", false, []⟩]

/-- `updateBranchColor(rootId, c)` runs out of every fuel bound on this
canvas: the recursion never terminates. -/
def updateBranchColorDiverges (rootId : ℕ) (c : String) (ns : List (Node ℚ)) : Prop :=
  ∀ fuel, updateBranchColorFuel fuel rootId c ns = none

theorem cycle_aux_diverges (c : String) :
    ∀ fuel (n₀ n₁ : Node ℚ), n₀.id = 0 → n₀.parentIds = [1] →
      n₁.id = 1 → n₁.parentIds = [0] →
      updateChildrenAux c fuel 0 [n₀, n₁] = none ∧
      updateChildrenAux c fuel 1 [n₀, n₁] = none := by
  intro fuel
  induction fuel with
  | zero =>
    intro n₀ n₁ _ _ _ _
    exact ⟨by simp [updateChildrenAux], by simp [updateChildrenAux]⟩
  | succ f ihf =>
    intro n₀ n₁ h0 hp0 h1 hp1
    have hlen : [n₀, n₁].length = 2 := rfl
    constructor
    · simp only [updateChildrenAux, hlen]
      have hrange : List.range 2 = [0, 1] := rfl
      rw [hrange]
      simp only [updateChildrenGo]
      have hg0 : ([n₀, n₁])[0]? = some n₀ := rfl
      have hg1 : ([n₀, n₁])[1]? = some n₁ := rfl
      rw [hg0]
      dsimp only
      rw [if_neg (by rw [hp0]; decide)]
      rw [hg1]
      dsimp only
      rw [if_pos (by rw [hp1]; exact List.mem_singleton_self 0)]
      have hset : setColorAt [n₀, n₁] 1 c = [n₀, { n₁ with color := some c }] := rfl
      have key : updateChildrenAux c f n₁.id (setColorAt [n₀, n₁] 1 c) = none := by
        rw [hset]
        have hr := (ihf n₀ { n₁ with color := some c } h0 hp0 h1 hp1).2
        rw [← h1] at hr
        exact hr
      rw [key]
    · simp only [updateChildrenAux, hlen]
      have hrange : List.range 2 = [0, 1] := rfl
      rw [hrange]
      simp only [updateChildrenGo]
      have hg0 : ([n₀, n₁])[0]? = some n₀ := rfl
      rw [hg0]
      dsimp only
      rw [if_pos (by rw [hp0]; exact List.mem_singleton_self 1)]
      have hset : setColorAt [n₀, n₁] 0 c = [{ n₀ with color := some c }, n₁] := rfl
      have key : updateChildrenAux c f n₀.id (setColorAt [n₀, n₁] 0 c) = none := by
        rw [hset]
        have hr := (ihf { n₀ with color := some c } n₁ h0 hp0 h1 hp1).1
        rw [← h0] at hr
        exact hr
      rw [key]

/-- C7 counterexample.  The claim says `updateBranchColor` terminates on
every graph the public operations can produce, including multi-hop cycles;
on the 2-cycle canvas (producible by two `completeLink` calls, which check
only self-links and duplicates) the recursion exhausts every fuel bound:
it never terminates. -/
theorem updateBranchColor_claim7_counterexample :
    updateBranchColorDiverges 0 "#FF5733" cycleCanvas ∧
    edgeOfShape (cycleCanvas.map Node.shape) 0 1 ∧
    edgeOfShape (cycleCanvas.map Node.shape) 1 0 := by
  refine ⟨?_, ⟨(1, [0]), by simp [cycleCanvas, Node.shape], rfl, by simp⟩,
    ⟨(0, [1]), by simp [cycleCanvas, Node.shape], rfl, by simp⟩⟩
  intro fuel
  unfold updateBranchColorFuel
  have hupd : updateFirst cycleCanvas 0 (fun n => { n with color := some "#FF5733" })
      = [⟨0, 0, 0, [1], some "#FF5733", "", "", false, []⟩,
         ⟨1, 0, 300, [0], none, "", "", false, []⟩] := rfl
  rw [hupd]
  exact (cycle_aux_diverges "#FF5733" fuel _ _ rfl rfl rfl rfl).1

theorem updateBranchColor_claim7_witness :
    ∃ out, updateBranchColorFuel ((fun x => 2 - x) 0 + 1) 0 "#33FF57" cleanupCanvas
        = some out ∧
      out.map Node.shape = cleanupCanvas.map Node.shape ∧
      idColored "#33FF57" out 0 ∧
      (∀ x, Relation.TransGen (edgeOfShape (cleanupCanvas.map Node.shape)) 0 x →
        idColored "#33FF57" out x) := by
  apply updateBranchColor_claim7 "#33FF57" 0 cleanupCanvas (by decide) (fun x => 2 - x)
  intro p x he
  rcases he with ⟨e, heL, h1, h2⟩
  have : e = (0, ([] : List ℕ)) ∨ e = (1, [0]) ∨ e = (2, [1]) := by
    simpa [cleanupCanvas, Node.shape] using heL
  rcases this with rfl | rfl | rfl
  · cases h2
  · simp only at h1 h2
    rcases List.mem_singleton.mp h2 with rfl
    rw [← h1]
    decide
  · simp only at h1 h2
    rcases List.mem_singleton.mp h2 with rfl
    rw [← h1]
    decide

/-! ### Resolve button handlers (src/script.js lines 1046-1076)

The double-click handler toggles `nodeData.resolved` unconditionally (no
leaf check); the click handler runs `cleanupNode` only when the node is
already resolved and the user confirms, and otherwise only shows a tip. -/

/-- The `resolveBtn` dblclick handler: `nodeData.resolved = !nodeData.resolved`. -/
def resolveDblclick (nodeId : ℕ) (ns : List (Node α)) : List (Node α) :=
  updateFirst ns nodeId (fun n => { n with resolved := !n.resolved })

/-- The `resolveBtn` click handler: cleanup if resolved and confirmed,
otherwise show a tip (no state change).  `confirmAnswer` is the user's
answer to the `confirm(...)` dialog. -/
def resolveClick [LinearOrderedField α] (centerX centerY : α) (nodeId : ℕ)
    (confirmAnswer : Bool) (ns : List (Node α)) : List (Node α) :=
  match findNode ns nodeId with
  | none => ns
  | some node =>
    if node.resolved then
      if confirmAnswer then cleanupNode centerX centerY nodeId ns else ns
    else ns

/-- C8 (amended).  The user action toggles `resolved` regardless of whether
the node is a leaf, leaving every other node untouched; from `resolved` the
node may toggle back; and the removed-via-cleanup transition fires exactly
when the node is resolved and the confirmation is accepted — an unresolved
node is never cleaned up. -/
theorem resolve_claim8 [LinearOrderedField α] (centerX centerY : α) (nodeId : ℕ)
    (ns : List (Node α)) (node : Node α) (hnd : (ns.map (·.id)).Nodup)
    (hn : node ∈ ns) (hid : node.id = nodeId) :
    (∃ n' ∈ resolveDblclick nodeId ns, n'.id = nodeId ∧ n'.resolved = !node.resolved) ∧
    (∀ m ∈ ns, m.id ≠ nodeId → m ∈ resolveDblclick nodeId ns) ∧
    (node.resolved = false → ∀ conf, resolveClick centerX centerY nodeId conf ns = ns) ∧
    (resolveClick centerX centerY nodeId false ns = ns) ∧
    (node.resolved = true →
      resolveClick centerX centerY nodeId true ns = cleanupNode centerX centerY nodeId ns) := by
  have hfind : findNode ns nodeId = some node := findNode_eq_of_mem hnd hn hid
  have hmapeq := updateFirst_eq_map hnd nodeId
    (fun n => { n with resolved := !n.resolved })
  refine ⟨?_, ?_, ?_, ?_, ?_⟩
  · refine ⟨{ node with resolved := !node.resolved }, ?_, hid, rfl⟩
    rw [resolveDblclick, hmapeq]
    refine List.mem_map.mpr ⟨node, hn, ?_⟩
    rw [if_pos hid]
  · intro m hm hne
    rw [resolveDblclick, hmapeq]
    refine List.mem_map.mpr ⟨m, hm, ?_⟩
    rw [if_neg hne]
  · intro hres conf
    simp only [resolveClick, hfind, hres]
    rw [if_neg (by simp)]
  · simp only [resolveClick, hfind]
    by_cases hres : node.resolved
    · rw [if_pos hres, if_neg (by simp)]
    · rw [if_neg hres]
  · intro hres
    simp only [resolveClick, hfind]
    rw [if_pos hres]
    simp

/-- A canvas where the non-leaf root `0` is unresolved: node `1` lists `0`
among its parents. -/
def resolveCanvas : List (Node ℚ) :=
  [⟨0, 0, 0, [], none, "", "", false, []⟩,
   ⟨1, 0, 300, [0], none, "", "", true, []⟩]

/-- C8 counterexample.  The claim permits the unresolved → resolved
transition only for leaves, but the double-click handler toggles the flag
with no leaf check: node `0` has a child (node `1` lists it in
`parentIds`) and still becomes resolved. -/
theorem resolve_claim8_counterexample :
    (∃ n ∈ resolveCanvas, 0 ∈ n.parentIds) ∧
    (findNode resolveCanvas 0).map (·.resolved) = some false ∧
    (findNode (resolveDblclick 0 resolveCanvas) 0).map (·.resolved) = some true := by
  refine ⟨⟨⟨1, 0, 300, [0], none, "", "", true, []⟩, ?_, ?_⟩, rfl, rfl⟩
  · exact List.mem_cons_of_mem _ (List.mem_singleton_self _)
  · exact List.mem_singleton_self 0

theorem resolve_claim8_witness :
    (∃ n' ∈ resolveDblclick 1 resolveCanvas, n'.id = 1 ∧
      n'.resolved = !(⟨1, 0, 300, [0], none, "", "", true, []⟩ : Node ℚ).resolved) ∧
    (∀ m ∈ resolveCanvas, m.id ≠ 1 → m ∈ resolveDblclick 1 resolveCanvas) ∧
    ((⟨1, 0, 300, [0], none, "", "", true, []⟩ : Node ℚ).resolved = false →
      ∀ conf, resolveClick (0 : ℚ) 0 1 conf resolveCanvas = resolveCanvas) ∧
    (resolveClick (0 : ℚ) 0 1 false resolveCanvas = resolveCanvas) ∧
    ((⟨1, 0, 300, [0], none, "", "", true, []⟩ : Node ℚ).resolved = true →
      resolveClick (0 : ℚ) 0 1 true resolveCanvas = cleanupNode 0 0 1 resolveCanvas) :=
  resolve_claim8 0 0 1 resolveCanvas ⟨1, 0, 300, [0], none, "", "", true, []⟩
    (by decide) (by decide) rfl

/-! ### resolveOverlaps (src/script.js lines 1436-1548)

The iterative relaxation pass.  JavaScript numbers are embedded as reals:
`Math.sqrt` is `Real.sqrt` and `Math.random()` is read from a stream
`σ : ℕ → ℝ` threaded by an index.  `getTreeWidth` and `getDescendants` are
visited/stack-guarded and embedded with the usual sufficient fuel. -/

mutual

/-- `getTreeWidth(nId, visited)`: leaf count of the subtree, sharing the
visited set across sibling recursion. -/
def getTreeWidthAux : ℕ → ℕ → Finset ℕ → List (Node ℝ) → ℕ × Finset ℕ
  | 0, _, vis, _ => (0, vis)
  | fuel+1, nId, vis, ns =>
    if nId ∈ vis then (0, vis)
    else
      let vis₁ := insert nId vis
      match childrenOf ns nId with
      | [] => (1, vis₁)
      | c :: cs => widthFold fuel ((c :: cs).map (·.id)) vis₁ ns
termination_by fuel _ _ _ => (fuel, 0)

/-- The `children.forEach(c => width += getTreeWidth(c.id, visited))` loop. -/
def widthFold : ℕ → List ℕ → Finset ℕ → List (Node ℝ) → ℕ × Finset ℕ
  | _, [], vis, _ => (0, vis)
  | fuel, c :: cs, vis, ns =>
    let r := getTreeWidthAux fuel c vis ns
    let r2 := widthFold fuel cs r.2 ns
    (r.1 + r2.1, r2.2)
termination_by fuel cs _ _ => (fuel, cs.length + 1)

end

/-- The `getDescendants` stack loop: pop an id, scan all nodes, mark and
push unseen children.  Fuel `nodes.length + 2` bounds the pops. -/
def getDescendantsLoop : ℕ → List ℕ → Finset ℕ → List (Node ℝ) → Finset ℕ
  | 0, _, desc, _ => desc
  | fuel+1, stack, desc, ns =>
    match stack with
    | [] => desc
    | currentId :: rest =>
      let scan := ns.foldl
        (fun (acc : Finset ℕ × List ℕ) n =>
          if currentId ∈ n.parentIds ∧ n.id ∉ acc.1
          then (insert n.id acc.1, n.id :: acc.2)
          else acc)
        (desc, [])
      getDescendantsLoop fuel (scan.2 ++ rest) scan.1 ns

/-- `getDescendants(rootId)` of `resolveOverlaps`. -/
def getDescendants (ns : List (Node ℝ)) (rootId : ℕ) : Finset ℕ :=
  getDescendantsLoop (ns.length + 2) [rootId] ∅ ns

/-- The per-node radius `250 + (Math.sqrt(width) - 1) * 220` from the
pre-computed `nodeRadii` map. -/
noncomputable def nodeRadius (ns : List (Node ℝ)) (i : ℕ) : ℝ :=
  250 + (Real.sqrt ((getTreeWidthAux (ns.length + 1) i ∅ ns).1 : ℝ) - 1) * 220

/-- One `nodes.forEach(other => ...)` relaxation scan.  The state is
`(canvas, random index, moved flag)`; `radii` and `descs` are the values
pre-computed at `resolveOverlaps` entry. -/
noncomputable def overlapPass (radii : ℕ → ℝ) (movedId : ℕ) (descs : Finset ℕ)
    (σ : ℕ → ℝ) : List ℕ → List (Node ℝ) × ℕ × Bool → List (Node ℝ) × ℕ × Bool
  | [], acc => acc
  | k :: ks, (ns, ri, moved) =>
    match ns[k]? with
    | none => overlapPass radii movedId descs σ ks (ns, ri, moved)
    | some other =>
      if other.id = movedId then overlapPass radii movedId descs σ ks (ns, ri, moved)
      else if other.id ∈ descs then overlapPass radii movedId descs σ ks (ns, ri, moved)
      else
        match findNode ns movedId with
        | none => overlapPass radii movedId descs σ ks (ns, ri, moved)
        | some movedNode =>
          let dx := movedNode.x - other.x
          let dy := movedNode.y - other.y
          let dist := Real.sqrt (dx * dx + dy * dy)
          let minDistance := radii movedId + radii other.id + 500
          if dist < minDistance then
            let pushX := if dist = 0 then σ ri - 0.5 else dx
            let pushY := if dist = 0 then (1 : ℝ) else dy
            let ri' := if dist = 0 then ri + 1 else ri
            let len := Real.sqrt (pushX * pushX + pushY * pushY)
            let nx := pushX / len
            let ny := pushY / len
            let overlap := minDistance - dist
            let totalRadius := radii movedId + radii other.id
            let movedFactor := radii other.id / totalRadius
            let otherFactor := radii movedId / totalRadius
            let moveX := nx * (overlap + 20)
            let moveY := ny * (overlap + 20)
            let ns₁ := if 0.05 < movedFactor
              then moveSubtree (moveX * movedFactor) (moveY * movedFactor) movedId ns
              else ns
            let moved₁ := if 0.05 < movedFactor then true else moved
            let ns₂ := if 0.05 < otherFactor
              then moveSubtree (-(moveX * otherFactor)) (-(moveY * otherFactor)) other.id ns₁
              else ns₁
            overlapPass radii movedId descs σ ks (ns₂, ri', moved₁)
          else overlapPass radii movedId descs σ ks (ns, ri, moved)

/-- The `while (iterations < maxIterations)` loop; returns the final
canvas, random index, and the value of `iterations` at exit. -/
noncomputable def overlapLoop (radii : ℕ → ℝ) (movedId : ℕ) (descs : Finset ℕ)
    (σ : ℕ → ℝ) : ℕ → ℕ → List (Node ℝ) → ℕ → List (Node ℝ) × ℕ × ℕ
  | 0, iters, ns, ri => (ns, ri, iters)
  | rem+1, iters, ns, ri =>
    let r := overlapPass radii movedId descs σ (List.range ns.length) (ns, ri, false)
    if r.2.2 then overlapLoop radii movedId descs σ rem (iters + 1) r.1 r.2.1
    else (r.1, r.2.1, iters)

/-- `resolveOverlaps(movedNodeId)` of src/script.js. -/
noncomputable def resolveOverlaps (σ : ℕ → ℝ) (movedId : ℕ) (ns : List (Node ℝ))
    (ri : ℕ) : List (Node ℝ) × ℕ × ℕ :=
  match findNode ns movedId with
  | none => (ns, ri, 0)
  | some _ =>
    overlapLoop (nodeRadius ns) movedId (getDescendants ns movedId) σ 5 0 ns ri

theorem ite_moveSubtree_struct (c : Prop) [Decidable c] (dx dy : ℝ) (i : ℕ)
    (ns : List (Node ℝ)) :
    ((if c then moveSubtree dx dy i ns else ns).map Node.struct) = ns.map Node.struct := by
  by_cases h : c
  · rw [if_pos h]
    exact moveSubtree_map_struct dx dy i ns
  · rw [if_neg h]

theorem overlapPass_struct (radii : ℕ → ℝ) (movedId : ℕ) (descs : Finset ℕ)
    (σ : ℕ → ℝ) :
    ∀ ks ns ri moved,
      ((overlapPass radii movedId descs σ ks (ns, ri, moved)).1).map Node.struct
        = ns.map Node.struct := by
  intro ks
  induction ks with
  | nil => intro ns ri moved; rfl
  | cons k ks ih =>
    intro ns ri moved
    simp only [overlapPass]
    cases hk : ns[k]? with
    | none => exact ih ns ri moved
    | some other =>
      dsimp only
      by_cases h1 : other.id = movedId
      · rw [if_pos h1]; exact ih ns ri moved
      · rw [if_neg h1]
        by_cases h2 : other.id ∈ descs
        · rw [if_pos h2]; exact ih ns ri moved
        · rw [if_neg h2]
          cases hf : findNode ns movedId with
          | none => exact ih ns ri moved
          | some movedNode =>
            dsimp only
            by_cases h3 : Real.sqrt ((movedNode.x - other.x) * (movedNode.x - other.x)
                + (movedNode.y - other.y) * (movedNode.y - other.y))
                < radii movedId + radii other.id + 500
            · rw [if_pos h3]
              refine (ih _ _ _).trans ?_
              exact (ite_moveSubtree_struct _ _ _ _ _).trans
                (ite_moveSubtree_struct _ _ _ _ _)
            · rw [if_neg h3]
              exact ih ns ri moved

theorem overlapLoop_struct (radii : ℕ → ℝ) (movedId : ℕ) (descs : Finset ℕ)
    (σ : ℕ → ℝ) :
    ∀ rem iters ns ri,
      ((overlapLoop radii movedId descs σ rem iters ns ri).1).map Node.struct
        = ns.map Node.struct := by
  intro rem
  induction rem with
  | zero => intro iters ns ri; rfl
  | succ r ih =>
    intro iters ns ri
    simp only [overlapLoop]
    by_cases hm : (overlapPass radii movedId descs σ (List.range ns.length)
        (ns, ri, false)).2.2
    · rw [if_pos hm]
      exact (ih _ _ _).trans (overlapPass_struct radii movedId descs σ _ ns ri false)
    · rw [if_neg hm]
      exact overlapPass_struct radii movedId descs σ _ ns ri false

/-- Frame: `resolveOverlaps` changes only node positions. -/
theorem resolveOverlaps_map_struct (σ : ℕ → ℝ) (movedId : ℕ) (ns : List (Node ℝ))
    (ri : ℕ) :
    ((resolveOverlaps σ movedId ns ri).1).map Node.struct = ns.map Node.struct := by
  unfold resolveOverlaps
  cases hf : findNode ns movedId with
  | none => rfl
  | some m => exact overlapLoop_struct _ _ _ _ _ _ _ _

/-- The relaxation loop executes at most `maxIterations = 5` iterations. -/
theorem overlapLoop_iterations (radii : ℕ → ℝ) (movedId : ℕ) (descs : Finset ℕ)
    (σ : ℕ → ℝ) :
    ∀ rem iters ns ri,
      (overlapLoop radii movedId descs σ rem iters ns ri).2.2 ≤ iters + rem := by
  intro rem
  induction rem with
  | zero => intro iters ns ri; simp [overlapLoop]
  | succ r ih =>
    intro iters ns ri
    simp only [overlapLoop]
    by_cases hm : (overlapPass radii movedId descs σ (List.range ns.length)
        (ns, ri, false)).2.2
    · rw [if_pos hm]
      have := ih (iters + 1) (overlapPass radii movedId descs σ (List.range ns.length)
        (ns, ri, false)).1 (overlapPass radii movedId descs σ (List.range ns.length)
        (ns, ri, false)).2.1
      omega
    · rw [if_neg hm]
      simp

/-- The moved node meets the combined minimum-separation threshold against
every other node of the canvas that is not one of its descendants — the
exact set of nodes the pass compares it with (the inner loop skips the
moved node itself and `descendants.has(node.id)`, and nothing else:
ancestors are compared too). -/
def noCollision (ns : List (Node ℝ)) (movedId : ℕ) : Prop :=
  ∀ mv, findNode ns movedId = some mv →
    ∀ other ∈ ns, other.id ≠ movedId → other.id ∉ getDescendants ns movedId →
      nodeRadius ns movedId + nodeRadius ns other.id + 500 ≤
        Real.sqrt ((mv.x - other.x) * (mv.x - other.x)
          + (mv.y - other.y) * (mv.y - other.y))

theorem overlapPass_id (movedId : ℕ) (σ : ℕ → ℝ)
    (ns : List (Node ℝ)) (hno : noCollision ns movedId) :
    ∀ ks ri moved,
      overlapPass (nodeRadius ns) movedId (getDescendants ns movedId) σ ks
        (ns, ri, moved) = (ns, ri, moved) := by
  intro ks
  induction ks with
  | nil => intro ri moved; rfl
  | cons k ks ih =>
    intro ri moved
    simp only [overlapPass]
    cases hk : ns[k]? with
    | none => exact ih ri moved
    | some other =>
      dsimp only
      by_cases h1 : other.id = movedId
      · rw [if_pos h1]; exact ih ri moved
      · rw [if_neg h1]
        by_cases h2 : other.id ∈ getDescendants ns movedId
        · rw [if_pos h2]; exact ih ri moved
        · rw [if_neg h2]
          cases hf : findNode ns movedId with
          | none => exact ih ri moved
          | some mv =>
            dsimp only
            have hother : other ∈ ns := by
              rcases List.getElem?_eq_some.mp hk with ⟨hlt, hget⟩
              rw [← hget]
              exact List.getElem_mem hlt
            have hge := hno mv hf other hother h1 h2
            rw [if_neg (not_lt.mpr hge)]
            exact ih ri moved

/-- When the moved node is clear of every compared (non-descendant) node,
the first pass moves nothing and the loop exits immediately. -/
theorem resolveOverlaps_id (σ : ℕ → ℝ) (movedId : ℕ) (ns : List (Node ℝ))
    (ri : ℕ) (hno : noCollision ns movedId) :
    resolveOverlaps σ movedId ns ri = (ns, ri, 0) := by
  unfold resolveOverlaps
  cases hf : findNode ns movedId with
  | none => rfl
  | some m =>
    have hpass := overlapPass_id movedId σ ns hno (List.range ns.length) ri false
    simp [overlapLoop, hpass]

/-- C5 (amended).  `resolveOverlaps` terminates after at most 5 relaxation
iterations; and the separation guarantee concerns only the pairs the pass
actually compares — the moved node against each node that is neither
itself nor one of its descendants (ancestors included): when the moved
node already meets the combined minimum-separation threshold against every
such node, the canvas is left entirely unchanged and the loop exits with
zero iterations, regardless of how close any two *other* nodes are. -/
theorem resolveOverlaps_claim5 (σ : ℕ → ℝ) (movedId : ℕ) (ns : List (Node ℝ))
    (ri : ℕ) :
    (resolveOverlaps σ movedId ns ri).2.2 ≤ 5 ∧
    (noCollision ns movedId → resolveOverlaps σ movedId ns ri = (ns, ri, 0)) := by
  constructor
  · unfold resolveOverlaps
    cases hf : findNode ns movedId with
    | none => simp
    | some m =>
      have := overlapLoop_iterations (nodeRadius ns) movedId (getDescendants ns movedId)
        σ 5 0 ns ri
      simpa using this
  · exact resolveOverlaps_id σ movedId ns ri

/-- A canvas where the moved node `0` is isolated: far from `1` and `2`,
which coincide. -/
def overlapCanvas : List (Node ℝ) :=
  [⟨0, 0, 0, [], none, "", "", false, []⟩,
   ⟨1, 10000, 0, [], none, "", "", false, []⟩,
   ⟨2, 10000, 0, [], none, "", "", false, []⟩]

theorem overlapCanvas_width :
    ∀ i, (getTreeWidthAux (overlapCanvas.length + 1) i ∅ overlapCanvas).1 = 1 := by
  intro i
  have hch : childrenOf overlapCanvas i = [] := by
    simp [childrenOf, overlapCanvas]
  simp [getTreeWidthAux, hch]

theorem overlapCanvas_radius : ∀ i, nodeRadius overlapCanvas i = 250 := by
  intro i
  rw [nodeRadius, overlapCanvas_width i]
  norm_num

theorem overlapCanvas_noCollision : noCollision overlapCanvas 0 := by
  intro mv hmv other hother hne hnd
  have hfind : findNode overlapCanvas 0
      = some ⟨0, 0, 0, [], none, "", "", false, []⟩ := rfl
  rw [hfind] at hmv
  cases hmv
  rw [overlapCanvas_radius, overlapCanvas_radius]
  simp only [overlapCanvas, List.mem_cons, List.not_mem_nil, or_false] at hother
  rcases hother with rfl | rfl | rfl
  · exact absurd rfl hne
  · have h1 : ((0 : ℝ) - 10000) * ((0 : ℝ) - 10000) + ((0 : ℝ) - 0) * ((0 : ℝ) - 0)
        = 10000 ^ 2 := by norm_num
    simp only
    rw [h1, Real.sqrt_sq (by norm_num : (0:ℝ) ≤ 10000)]
    norm_num
  · have h1 : ((0 : ℝ) - 10000) * ((0 : ℝ) - 10000) + ((0 : ℝ) - 0) * ((0 : ℝ) - 0)
        = 10000 ^ 2 := by norm_num
    simp only
    rw [h1, Real.sqrt_sq (by norm_num : (0:ℝ) ≤ 10000)]
    norm_num

/-- C5 counterexample.  The claim as stated promises that a run not cut
off at the iteration cap leaves **no two** non-ancestor/descendant nodes
within their combined threshold; here `resolveOverlaps(0)` exits after
zero iterations leaving the canvas unchanged, yet the unrelated nodes `1`
and `2` (neither a descendant of the other) coincide — far below their
combined minimum separation of 1000. -/
theorem resolveOverlaps_claim5_counterexample :
    resolveOverlaps (fun _ => 0) 0 overlapCanvas 0 = (overlapCanvas, 0, 0) ∧
    (resolveOverlaps (fun _ => 0) 0 overlapCanvas 0).2.2 < 5 ∧
    2 ∉ getDescendants overlapCanvas 1 ∧
    1 ∉ getDescendants overlapCanvas 2 ∧
    Real.sqrt (((10000 : ℝ) - 10000) * ((10000 : ℝ) - 10000)
        + ((0 : ℝ) - 0) * ((0 : ℝ) - 0))
      < nodeRadius overlapCanvas 1 + nodeRadius overlapCanvas 2 + 500 := by
  have hmain := resolveOverlaps_id (fun _ => 0) 0 overlapCanvas 0
    overlapCanvas_noCollision
  refine ⟨hmain, by rw [hmain]; norm_num, ?_, ?_, ?_⟩
  · decide
  · decide
  · rw [overlapCanvas_radius, overlapCanvas_radius]
    have h0 : ((10000 : ℝ) - 10000) * ((10000 : ℝ) - 10000)
        + ((0 : ℝ) - 0) * ((0 : ℝ) - 0) = 0 := by norm_num
    rw [h0, Real.sqrt_zero]
    norm_num

/-- A canvas holding a single node: the separation hypothesis is vacuous. -/
def soloCanvas : List (Node ℝ) := [⟨7, 0, 0, [], none, "", "", false, []⟩]

theorem resolveOverlaps_claim5_witness :
    (resolveOverlaps (fun _ => 0) 7 soloCanvas 0).2.2 ≤ 5 ∧
    resolveOverlaps (fun _ => 0) 7 soloCanvas 0 = (soloCanvas, 0, 0) := by
  have h := resolveOverlaps_claim5 (fun _ => 0) 7 soloCanvas 0
  refine ⟨h.1, h.2 ?_⟩
  intro mv hmv other hother hne hnd
  simp only [soloCanvas, List.mem_cons, List.not_mem_nil, or_false] at hother
  subst hother
  exact absurd rfl hne

/-- C10.  `moveSubtree` and `resolveOverlaps` mutate only node positions:
the node list projected to everything except `x`/`y` — node count and
order, ids, parentIds, color, heading, description, resolved flag and
instructions — is unchanged by either call. -/
theorem frame_claim10 (dx dy : ℝ) (nodeId : ℕ) (σ : ℕ → ℝ) (movedId : ℕ)
    (ns : List (Node ℝ)) (ri : ℕ) :
    (moveSubtree dx dy nodeId ns).map Node.struct = ns.map Node.struct ∧
    ((resolveOverlaps σ movedId ns ri).1).map Node.struct = ns.map Node.struct :=
  ⟨moveSubtree_map_struct dx dy nodeId ns, resolveOverlaps_map_struct σ movedId ns ri⟩

/-! ### completeLink and repositionSharedNode (src/script.js lines 1369-1418
and 1550-1610) -/

/-- `repositionSharedNode(childNode)`: move the child (and its subtree) to
a fixed offset from the centroid of its present parents, then resolve
overlaps.  Returns the canvas and the advanced random index. -/
noncomputable def repositionSharedNode (σ : ℕ → ℝ) (childId : ℕ)
    (ns : List (Node ℝ)) (ri : ℕ) : List (Node ℝ) × ℕ :=
  match findNode ns childId with
  | none => (ns, ri)
  | some childNode =>
    if childNode.parentIds.length = 0 then (ns, ri)
    else
      let found := childNode.parentIds.filterMap (fun pId => findNode ns pId)
      if found.length = 0 then (ns, ri)
      else
        let centerX := (found.map (·.x)).sum / (found.length : ℝ)
        let centerY := (found.map (·.y)).sum / (found.length : ℝ)
        let dx0 := childNode.x - centerX
        let dy0 := childNode.y - centerY
        let dx := if |dx0| < 10 ∧ |dy0| < 10 then (0 : ℝ) else dx0
        let dy := if |dx0| < 10 ∧ |dy0| < 10 then (150 : ℝ) else dy0
        let len := Real.sqrt (dx * dx + dy * dy)
        let targetX := if len < 200 then centerX + dx * (if 0 < len then 200 / len else 1)
          else childNode.x
        let targetY := if len < 200 then centerY + dy * (if 0 < len then 200 / len else 1)
          else if childNode.y < centerY + 50 then centerY + 150 else childNode.y
        let deltaX := targetX - childNode.x
        let deltaY := targetY - childNode.y
        let ns₁ := if 1 < |deltaX| ∨ 1 < |deltaY|
          then moveSubtree deltaX deltaY childId ns else ns
        let r := resolveOverlaps σ childId ns₁ ri
        (r.1, r.2.1)

/-- The `while (current && safetyCounter < 20)` upward overlap
propagation along the first-parent chain. -/
noncomputable def propagateUp (σ : ℕ → ℝ) :
    ℕ → ℕ → List (Node ℝ) → ℕ → List (Node ℝ) × ℕ
  | 0, _, ns, ri => (ns, ri)
  | fuel+1, currentId, ns, ri =>
    match findNode ns currentId with
    | none => (ns, ri)
    | some current =>
      let r := resolveOverlaps σ current.id ns ri
      match current.parentIds with
      | [] => (r.1, r.2.1)
      | p :: _ => propagateUp σ fuel p r.1 r.2.1

/-- `completeLink(parentId, childId)` of src/script.js: the returned
`Option String` is the `alert` text, the model of the user-visible notice
(the trailing view-centering mutates only pan). -/
noncomputable def completeLink (σ : ℕ → ℝ) (parentId childId : ℕ)
    (ns : List (Node ℝ)) (ri : ℕ) : (List (Node ℝ) × ℕ) × Option String :=
  match findNode ns childId with
  | none => ((ns, ri), none)
  | some child =>
    if parentId = childId then ((ns, ri), none)
    else if parentId ∈ child.parentIds then
      ((ns, ri), some "Nodes are already connected.")
    else
      let ns₁ := updateFirst ns childId
        (fun n => { n with parentIds := n.parentIds ++ [parentId] })
      let r₁ := repositionSharedNode σ childId ns₁ ri
      let r₂ := propagateUp σ 20 parentId r₁.1 r₁.2
      ((r₂.1, r₂.2), none)

theorem repositionSharedNode_struct (σ : ℕ → ℝ) (childId : ℕ)
    (ns : List (Node ℝ)) (ri : ℕ) :
    ((repositionSharedNode σ childId ns ri).1).map Node.struct = ns.map Node.struct := by
  unfold repositionSharedNode
  cases hf : findNode ns childId with
  | none => rfl
  | some childNode =>
    dsimp only
    by_cases h0 : childNode.parentIds.length = 0
    · rw [if_pos h0]
    · rw [if_neg h0]
      by_cases h1 : (childNode.parentIds.filterMap (fun pId => findNode ns pId)).length = 0
      · rw [if_pos h1]
      · rw [if_neg h1]
        exact (resolveOverlaps_map_struct _ _ _ _).trans
          (ite_moveSubtree_struct _ _ _ _ _)

theorem propagateUp_struct (σ : ℕ → ℝ) :
    ∀ fuel currentId (ns : List (Node ℝ)) ri,
      ((propagateUp σ fuel currentId ns ri).1).map Node.struct = ns.map Node.struct := by
  intro fuel
  induction fuel with
  | zero => intro currentId ns ri; rfl
  | succ f ih =>
    intro currentId ns ri
    simp only [propagateUp]
    cases hf : findNode ns currentId with
    | none => rfl
    | some current =>
      dsimp only
      cases hp : current.parentIds with
      | nil => exact resolveOverlaps_map_struct _ _ _ _
      | cons p rest =>
        exact (ih _ _ _).trans (resolveOverlaps_map_struct _ _ _ _)

/-- C6 (amended).  A self-link leaves the canvas unchanged and is rejected
silently (no notice); a duplicate link leaves the canvas unchanged and is
rejected with the user-visible "already connected" notice; otherwise
`completeLink` appends `parentId` to the child's `parentIds` exactly once,
and the subsequent `repositionSharedNode` and upward overlap propagation
change positions only, so the final canvas differs from the input exactly
by that single appended parent reference. -/
theorem completeLink_claim6 (σ : ℕ → ℝ) (ri : ℕ) (parentId childId : ℕ)
    (ns : List (Node ℝ)) (child : Node ℝ) (hnd : (ns.map (·.id)).Nodup)
    (hn : child ∈ ns) (hid : child.id = childId) :
    (parentId = childId → completeLink σ parentId childId ns ri = ((ns, ri), none)) ∧
    (parentId ≠ childId → parentId ∈ child.parentIds →
      completeLink σ parentId childId ns ri
        = ((ns, ri), some "Nodes are already connected.")) ∧
    (parentId ≠ childId → parentId ∉ child.parentIds →
      (completeLink σ parentId childId ns ri).2 = none ∧
      ((completeLink σ parentId childId ns ri).1.1).map Node.struct
        = (updateFirst ns childId
            (fun n => { n with parentIds := n.parentIds ++ [parentId] })).map Node.struct) := by
  have hfind : findNode ns childId = some child := findNode_eq_of_mem hnd hn hid
  refine ⟨?_, ?_, ?_⟩
  · intro heq
    simp only [completeLink, hfind]
    rw [if_pos heq]
  · intro hne hdup
    simp only [completeLink, hfind]
    rw [if_neg hne, if_pos hdup]
  · intro hne hdup
    simp only [completeLink, hfind]
    rw [if_neg hne, if_neg hdup]
    exact ⟨rfl, (propagateUp_struct σ 20 parentId _ _).trans
      (repositionSharedNode_struct σ childId _ ri)⟩

/-- A canvas with a root `0` and its child `1`, plus the unrelated root `2`. -/
def linkCanvas : List (Node ℝ) :=
  [⟨0, 0, 0, [], none, "", "", false, []⟩,
   ⟨1, 650, 0, [0], none, "", "", false, []⟩,
   ⟨2, 0, 1300, [], none, "", "", false, []⟩]

/-- C6 counterexample.  The claim says both self-links and duplicate links
are rejected with a user-visible notice; the code alerts only for
duplicate links and rejects self-links silently: `completeLink(1, 1)`
returns without any notice. -/
theorem completeLink_claim6_counterexample :
    (∃ n ∈ linkCanvas, n.id = 1) ∧
    (completeLink (fun _ => 0) 1 1 linkCanvas 0).2 = none ∧
    (completeLink (fun _ => 0) 1 1 linkCanvas 0).1 = (linkCanvas, 0) := by
  have hfind : findNode linkCanvas 1
      = some ⟨1, 650, 0, [0], none, "", "", false, []⟩ := rfl
  refine ⟨⟨⟨1, 650, 0, [0], none, "", "", false, []⟩, ?_, rfl⟩, ?_, ?_⟩
  · exact List.mem_cons_of_mem _ (List.mem_cons_self _ _)
  · simp only [completeLink, hfind, if_true]
  · simp only [completeLink, hfind, if_true]

theorem completeLink_claim6_witness :
    (1 = 1 → completeLink (fun _ => 0) 1 1 linkCanvas 0 = ((linkCanvas, 0), none)) ∧
    (1 ≠ 1 → 1 ∈ (⟨1, 650, 0, [0], none, "", "", false, []⟩ : Node ℝ).parentIds →
      completeLink (fun _ => 0) 1 1 linkCanvas 0
        = ((linkCanvas, 0), some "Nodes are already connected.")) ∧
    (1 ≠ 1 → 1 ∉ (⟨1, 650, 0, [0], none, "", "", false, []⟩ : Node ℝ).parentIds →
      (completeLink (fun _ => 0) 1 1 linkCanvas 0).2 = none ∧
      ((completeLink (fun _ => 0) 1 1 linkCanvas 0).1.1).map Node.struct
        = (updateFirst linkCanvas 1
            (fun n => { n with parentIds := n.parentIds ++ [1] })).map Node.struct) := by
  apply completeLink_claim6 (fun _ => 0) 0 1 1 linkCanvas
    ⟨1, 650, 0, [0], none, "", "", false, []⟩
  · decide
  · exact List.mem_cons_of_mem _ (List.mem_cons_self _ _)
  · rfl

/-! ### findSmartPosition (src/script.js lines 1725-1789) -/

/-- The rectangular collision check of `findSmartPosition`: the candidate
box (600 × 200) at `c` overlaps the box of node `n`. -/
def overlapBox (c : ℝ × ℝ) (n : Node ℝ) : Prop :=
  c.1 < n.x + 600 ∧ n.x < c.1 + 600 ∧ c.2 < n.y + 200 ∧ n.y < c.2 + 200

noncomputable instance (c : ℝ × ℝ) (n : Node ℝ) : Decidable (overlapBox c n) := by
  unfold overlapBox; infer_instance

/-- The `for (const node of allNodes)` collision loop. -/
noncomputable def hasCollision (c : ℝ × ℝ) (ns : List (Node ℝ)) : Bool :=
  ns.any (fun n => decide (overlapBox c n))

/-- The candidate of spiral step `step` at distance `radius`:
`sign = step % 2 === 0 ? 1 : -1`, `multiplier = Math.ceil(step / 2)`,
offset in 22.5° increments from the base angle. -/
noncomputable def candidatePoint (parent : Node ℝ) (baseAngle radius : ℝ)
    (step : ℕ) : ℝ × ℝ :=
  let sign : ℝ := if step % 2 = 0 then 1 else -1
  let multiplier : ℝ := (((step + 1) / 2 : ℕ) : ℝ)
  let currentAngle := baseAngle + sign * multiplier * (Real.pi / 8)
  (parent.x + Real.cos currentAngle * radius, parent.y + Real.sin currentAngle * radius)

/-- The `while (step < maxSteps)` loop, fuelled by the remaining steps
(`rem = maxSteps - step`); `radius += 100` when the incremented step
exceeds 16 and is divisible by 16, fallback `(parent.x+50, parent.y+50)`. -/
noncomputable def spiralSearch (parent : Node ℝ) (allNodes : List (Node ℝ))
    (baseAngle : ℝ) : ℕ → ℕ → ℝ → ℝ × ℝ
  | 0, _, _ => (parent.x + 50, parent.y + 50)
  | rem+1, step, radius =>
    let c := candidatePoint parent baseAngle radius step
    if hasCollision c allNodes then
      let step' := step + 1
      let radius' := if 16 < step' ∧ step' % 16 = 0 then radius + 100 else radius
      spiralSearch parent allNodes baseAngle rem step' radius'
    else c

/-- `baseAngle`: continue the grandparent→parent direction
(`Math.atan2(dy, dx)` is the argument of the complex number `dx + dy·i`),
or 0 for a root / missing grandparent. -/
noncomputable def baseAngleOf (parent : Node ℝ) (allNodes : List (Node ℝ)) : ℝ :=
  match parent.parentIds with
  | [] => 0
  | p :: _ =>
    match findNode allNodes p with
    | none => 0
    | some gp => Complex.arg ⟨parent.x - gp.x, parent.y - gp.y⟩

/-- `findSmartPosition(parent, allNodes)`: spiral search over 200 steps
starting at radius 650. -/
noncomputable def findSmartPosition (parent : Node ℝ)
    (allNodes : List (Node ℝ)) : ℝ × ℝ :=
  spiralSearch parent allNodes (baseAngleOf parent allNodes) 200 0 650

theorem spiralSearch_spec (parent : Node ℝ) (allNodes : List (Node ℝ))
    (baseAngle : ℝ) : ∀ rem step radius,
    (∃ s r, step ≤ s ∧ s < step + rem ∧
      spiralSearch parent allNodes baseAngle rem step radius
        = candidatePoint parent baseAngle r s ∧
      hasCollision (candidatePoint parent baseAngle r s) allNodes = false) ∨
    spiralSearch parent allNodes baseAngle rem step radius
      = (parent.x + 50, parent.y + 50) := by
  intro rem
  induction rem with
  | zero => intro step radius; right; rfl
  | succ m ih =>
    intro step radius
    simp only [spiralSearch]
    cases hc : hasCollision (candidatePoint parent baseAngle radius step) allNodes with
    | false =>
      left
      exact ⟨step, radius, le_refl _, by omega, by rw [if_neg (by simp [hc])], hc⟩
    | true =>
      rw [if_pos (by simp [hc])]
      rcases ih (step + 1)
          (if 16 < step + 1 ∧ (step + 1) % 16 = 0 then radius + 100 else radius) with
        ⟨s, r, hs1, hs2, heq, hfree⟩ | hfb
      · exact Or.inl ⟨s, r, by omega, by omega, heq, hfree⟩
      · exact Or.inr hfb

/-- C9.  `findSmartPosition` always returns a point: either some spiral
step `s < 200` succeeds and the result is that step's candidate, whose
600×200 bounding box overlaps no node of the collection, or the step
budget is exhausted and the result is the fixed fallback
`(parent.x + 50, parent.y + 50)`. -/
theorem findSmartPosition_claim9 (parent : Node ℝ) (allNodes : List (Node ℝ)) :
    (∃ s, s < 200 ∧ ∃ r,
      findSmartPosition parent allNodes
        = candidatePoint parent (baseAngleOf parent allNodes) r s ∧
      ∀ n ∈ allNodes, ¬ overlapBox (findSmartPosition parent allNodes) n) ∨
    findSmartPosition parent allNodes = (parent.x + 50, parent.y + 50) := by
  rcases spiralSearch_spec parent allNodes (baseAngleOf parent allNodes) 200 0 650 with
    ⟨s, r, _, hs2, heq, hfree⟩ | hfb
  · left
    refine ⟨s, by omega, r, heq, ?_⟩
    intro n hn hov
    unfold findSmartPosition at hov
    rw [heq] at hov
    simp only [hasCollision, List.any_eq_false, decide_eq_true_eq] at hfree
    exact hfree n hn hov
  · right
    exact hfb

end Orbit
